import Mathlib

/-!
# Verification of the alator/rotala matching engines

Shallow embedding of the two order books of the repository:

* the V2 depth engine (`src/rotala/src/exchange/uist_v2.rs`): `OrderBook`,
  `FillTracker`, `LatencyModel`, `UistV2`;
* the V1 top-of-book engine (`src/crates/rotala/src/orderbook/diana.rs`):
  `Diana` against the `Penelope` quote source.

Modelling conventions:

* Rust `f64` prices, sizes and quantities are modelled by `ℚ`.  Every
  comparison and arithmetic operation the claims exercise is exact on the
  decimal inputs involved; `f64::MAX` / `f64::MIN` are kept as the concrete
  finite constants they are.
* Rust `u64` order ids are modelled by `ℕ` and `i64` timestamps by `ℤ`.
  Overflow of the id counter or of timestamp arithmetic is out of scope: in
  debug builds Rust panics on overflow, and no claim is about wraparound.
* `BTreeMap` is modelled by an association list kept sorted by key (sorted
  insertion, first-match lookup); iterating it is iterating the list.
* `HashMap` (Diana's resting book) has *unspecified* iteration order in Rust;
  it is modelled by an association list whose order stands for the iteration
  order of one concrete execution.
* The `FillTracker` / aggregated taker-trade maps, keyed in the source by the
  decimal string of the price, are modelled as functions from the price
  itself; `f64::to_string` is injective on the values involved.
* Rust panics (`unwrap` on `None` for fields the public constructors always
  populate, `panic!` on filling a Cancel/Modify) are unreachable in the
  program and are given harmless default branches, marked by comments.
-/

namespace Rotala

/-! ## Data model (source `uist_v2.rs` and the `source::hyperliquid` module).

The `source::hyperliquid` types (`Level`, `Depth`, `Trade`, `Side`,
`DateDepth`, `DateTrade`) are declared outside `src/`; they are plain data
containers. Modelled from the spec: §6 data-feed contract (a nested mapping
venue → symbol → depth with bid/ask levels, and a time-indexed sequence of
taker trades), field names taken from their uses in `uist_v2.rs`. -/

structure Level where
  price : ℚ
  size : ℚ
deriving DecidableEq

structure Depth where
  bids : List Level
  asks : List Level
  date : ℤ
  symbol : String
  exchange : String
deriving DecidableEq

inductive Side where
  | Bid
  | Ask
deriving DecidableEq

structure Trade where
  coin : String
  side : Side
  px : ℚ
  sz : ℚ
  time : ℤ
  exchange : String
deriving DecidableEq

/-- `BTreeMap<String, BTreeMap<String, Depth>>`: venue → symbol → depth. -/
abbrev DateDepth := List (String × List (String × Depth))

/-- `BTreeMap<i64, Vec<Trade>>`: timestamp → taker prints. -/
abbrev DateTrade := List (ℤ × List Trade)

/-- First-match association-list lookup: `BTreeMap::get` / `HashMap::get`. -/
def mapGet {β : Type} (k : String) : List (String × β) → Option β
  | [] => none
  | (k', v) :: rest => if k = k' then some v else mapGet k rest

/-! ## V2 order types (`uist_v2.rs`) -/

inductive OrderType where
  | MarketSell
  | MarketBuy
  | LimitBuy
  | LimitSell
  | Cancel
  | Modify
deriving DecidableEq

structure Order where
  order_type : OrderType
  symbol : String
  qty : ℚ
  price : Option ℚ
  order_id_ref : Option ℕ
  exchange : String
deriving DecidableEq

inductive OrderResultType where
  | Buy
  | Sell
  | Modify
  | Cancel
deriving DecidableEq

structure OrderResult where
  symbol : String
  value : ℚ
  quantity : ℚ
  date : ℤ
  typ : OrderResultType
  order_id : ℕ
  order_id_ref : Option ℕ
  exchange : String
deriving DecidableEq

/-- Internal representation of an order resting in the V2 book. -/
structure InnerOrder where
  order_type : OrderType
  symbol : String
  qty : ℚ
  price : Option ℚ
  recieved_timestamp : ℤ
  order_id : ℕ
  order_id_ref : Option ℕ
  exchange : String
deriving DecidableEq

inductive LatencyModel where
  | None
  | FixedPeriod (period : ℤ)
deriving DecidableEq

/-- `LatencyModel::cmp_order`. -/
def LatencyModel.cmpOrder : LatencyModel → ℤ → InnerOrder → Bool
  | .None, _, _ => true
  | .FixedPeriod period, now, order => decide (order.recieved_timestamp + period < now)

inductive OrderBookOrderPriority where
  | AlwaysFirst
  | TradeThrough
deriving DecidableEq

/-! ## FillTracker and taker-trade aggregation -/

/-- `FillTracker`: symbol → price → cumulative filled size, defaulting to 0
(`get_fill` returns 0 for absent keys, `insert_fill` adds). -/
abbrev FillTracker := String → ℚ → ℚ

def getFill (f : FillTracker) (symbol : String) (price : ℚ) : ℚ :=
  f symbol price

def insertFill (f : FillTracker) (symbol : String) (price : ℚ) (filled : ℚ) : FillTracker :=
  fun s p => if s = symbol ∧ p = price then f s p + filled else f s p

/-- `FilledTrades`: price → (buy volume, sell volume); `None` when no taker
print exists at the price (the source's `HashMap::get` returning `None`). -/
abbrev FilledTrades := ℚ → Option (ℚ × ℚ)

/-- One iteration of the taker-trade aggregation loop in `execute_orders`:
`entry(px).or_insert((0,0))`, then `side = Bid` adds to the sell volume and
`side = Ask` adds to the buy volume. -/
def addTrade (m : FilledTrades) (t : Trade) : FilledTrades :=
  let cur := (m t.px).getD (0, 0)
  let upd : ℚ × ℚ :=
    match t.side with
    | .Bid => (cur.1, cur.2 + t.sz)
    | .Ask => (cur.1 + t.sz, cur.2)
  fun p => if p = t.px then some upd else m p

/-- All taker prints of the tick window in iteration order
(`trades.values()` flattened). -/
def allTrades (trades : DateTrade) : List Trade :=
  (trades.map Prod.snd).flatten

/-- Phase A of `execute_orders`: aggregate taker prints by price. -/
def buildTakerTrades (trades : DateTrade) : FilledTrades :=
  (allTrades trades).foldl addTrade (fun _ => none)

/-! ## The V2 fill walk (`OrderBook::fill_order`) -/

/-- `is_buy` in `fill_order`.  The source panics on Cancel/Modify; those
never reach `fill_order`, so the default branch is arbitrary. -/
def isBuyType : OrderType → Bool
  | .MarketBuy | .LimitBuy => true
  | _ => false

/-- Largest finite `f64` value, used by the source as the price check of a
market buy. -/
def f64Max : ℚ := (2 ^ 53 - 1) * 2 ^ 971

/-- `price_check` in `fill_order`.  For limit orders the source unwraps the
price, which the public constructors always populate; the `none` branch is
unreachable.  The Cancel/Modify branch panics in the source and never runs. -/
def priceCheck (o : InnerOrder) : ℚ :=
  match o.order_type with
  | .LimitBuy | .LimitSell => o.price.getD 0
  | .MarketBuy => f64Max
  | .MarketSell => -f64Max
  | _ => 0

/-- The loop over `depth.bids` in `fill_order`, threading the remaining
quantity and the fill tracker and emitting results in walk order.  Returns
`(to_fill, filled, trades)`. -/
def bidWalk (o : InnerOrder) (tk : FilledTrades) (prio : OrderBookOrderPriority)
    (isBuy : Bool) (pc : ℚ) (date : ℤ) :
    List Level → ℚ → FillTracker → ℚ × FillTracker × List OrderResult
  | [], toFill, filled => (toFill, filled, [])
  | bid :: rest, toFill, filled =>
    let filledSize := getFill filled o.symbol bid.price
    if prio = .AlwaysFirst ∧ isBuy = true ∧ bid.price = pc then
      match tk pc with
      | some vol =>
        let size := vol.2 - filledSize
        if size = 0 then (toFill, filled, [])
        else
          let qty := if size ≥ toFill then toFill else size
          let trade : OrderResult :=
            { symbol := o.symbol, value := bid.price * qty, quantity := qty, date := date,
              typ := .Buy, order_id := o.order_id, order_id_ref := none, exchange := o.exchange }
          let next := bidWalk o tk prio isBuy pc date rest (toFill - qty)
            (insertFill filled o.symbol bid.price qty)
          (next.1, next.2.1, trade :: next.2.2)
      | none => bidWalk o tk prio isBuy pc date rest toFill filled
    else if isBuy = false ∧ bid.price ≥ pc then
      let size := bid.size - filledSize
      if size = 0 then (toFill, filled, [])
      else
        let qty := if size ≥ toFill then toFill else size
        let trade : OrderResult :=
          { symbol := o.symbol, value := bid.price * qty, quantity := qty, date := date,
            typ := .Sell, order_id := o.order_id, order_id_ref := none, exchange := o.exchange }
        let filled' := insertFill filled o.symbol bid.price qty
        if toFill - qty = 0 then (toFill - qty, filled', [trade])
        else
          let next := bidWalk o tk prio isBuy pc date rest (toFill - qty) filled'
          (next.1, next.2.1, trade :: next.2.2)
    else
      bidWalk o tk prio isBuy pc date rest toFill filled

/-- The loop over `depth.asks` in `fill_order`.  In the buy branch the source
re-reads the tracker; the two reads agree because the branches are mutually
exclusive, and the re-read is mirrored. -/
def askWalk (o : InnerOrder) (tk : FilledTrades) (prio : OrderBookOrderPriority)
    (isBuy : Bool) (pc : ℚ) (date : ℤ) :
    List Level → ℚ → FillTracker → ℚ × FillTracker × List OrderResult
  | [], toFill, filled => (toFill, filled, [])
  | ask :: rest, toFill, filled =>
    let filledSize := getFill filled o.symbol ask.price
    if prio = .AlwaysFirst ∧ isBuy = false ∧ ask.price = pc then
      match tk pc with
      | some vol =>
        let size := vol.1 - filledSize
        if size = 0 then (toFill, filled, [])
        else
          let qty := if size ≥ toFill then toFill else size
          let trade : OrderResult :=
            { symbol := o.symbol, value := ask.price * qty, quantity := qty, date := date,
              typ := .Sell, order_id := o.order_id, order_id_ref := none, exchange := o.exchange }
          let next := askWalk o tk prio isBuy pc date rest (toFill - qty)
            (insertFill filled o.symbol ask.price qty)
          (next.1, next.2.1, trade :: next.2.2)
      | none => askWalk o tk prio isBuy pc date rest toFill filled
    else if isBuy = true ∧ ask.price ≤ pc then
      let filledSize2 := getFill filled o.symbol ask.price
      let size := ask.size - filledSize2
      if size = 0 then (toFill, filled, [])
      else
        let qty := if size ≥ toFill then toFill else size
        let trade : OrderResult :=
          { symbol := o.symbol, value := ask.price * qty, quantity := qty, date := date,
            typ := .Buy, order_id := o.order_id, order_id_ref := none, exchange := o.exchange }
        let filled' := insertFill filled o.symbol ask.price qty
        if toFill - qty = 0 then (toFill - qty, filled', [trade])
        else
          let next := askWalk o tk prio isBuy pc date rest (toFill - qty) filled'
          (next.1, next.2.1, trade :: next.2.2)
    else
      askWalk o tk prio isBuy pc date rest toFill filled

/-- `OrderBook::fill_order`: walk the bid side, then the ask side.  Returns
the updated tracker (threaded by `&mut` in the source) and the trades. -/
def fillOrder (depth : Depth) (o : InnerOrder) (filled : FillTracker)
    (tk : FilledTrades) (prio : OrderBookOrderPriority) :
    FillTracker × List OrderResult :=
  let isBuy := isBuyType o.order_type
  let pc := priceCheck o
  let r1 := bidWalk o tk prio isBuy pc depth.date depth.bids o.qty filled
  let r2 := askWalk o tk prio isBuy pc depth.date depth.asks r1.1 r1.2.1
  (r2.2.1, r1.2.2 ++ r2.2.2)

/-! ## The V2 order book (`OrderBook`) -/

/-- The V2 book.  `inner` models the `BTreeMap<OrderId, InnerOrder>`: an
association list sorted ascending by key. -/
structure OrderBook where
  inner : List (ℕ × InnerOrder)
  latency : LatencyModel
  last_order_id : ℕ
  priority_setting : OrderBookOrderPriority

def OrderBook.new : OrderBook :=
  { inner := [], latency := .None, last_order_id := 0, priority_setting := .AlwaysFirst }

def OrderBook.withLatency (latency : ℤ) : OrderBook :=
  { inner := [], latency := .FixedPeriod latency, last_order_id := 0,
    priority_setting := .AlwaysFirst }

/-- `BTreeMap::insert` on the sorted association list (replacing an existing
key, keeping the order). -/
def btInsert (k : ℕ) (v : InnerOrder) : List (ℕ × InnerOrder) → List (ℕ × InnerOrder)
  | [] => [(k, v)]
  | (k', v') :: rest =>
    if k < k' then (k, v) :: (k', v') :: rest
    else if k = k' then (k, v) :: rest
    else (k', v') :: btInsert k v rest

/-- `BTreeMap::remove` (dropping the key). -/
def btRemove (k : ℕ) (l : List (ℕ × InnerOrder)) : List (ℕ × InnerOrder) :=
  l.filter (fun p => !decide (p.1 = k))

/-- `BTreeMap::get` by order id. -/
def btGet (k : ℕ) : List (ℕ × InnerOrder) → Option InnerOrder
  | [] => none
  | (k', v) :: rest => if k = k' then some v else btGet k rest

/-- `BTreeMap::get_mut` followed by an in-place update. -/
def btAdjust (k : ℕ) (f : InnerOrder → InnerOrder) (l : List (ℕ × InnerOrder)) :
    List (ℕ × InnerOrder) :=
  l.map (fun p => if p.1 = k then (p.1, f p.2) else p)

/-- `OrderBook::insert_order`: build the inner order with the next id and the
received-at timestamp, insert it, bump the counter. -/
def OrderBook.insertOrder (b : OrderBook) (order : Order) (now : ℤ) : OrderBook × InnerOrder :=
  let inner_order : InnerOrder :=
    { recieved_timestamp := now, order_id := b.last_order_id,
      order_type := order.order_type, symbol := order.symbol, qty := order.qty,
      price := order.price, order_id_ref := order.order_id_ref, exchange := order.exchange }
  ({ b with inner := btInsert b.last_order_id inner_order b.inner,
            last_order_id := b.last_order_id + 1 }, inner_order)

def OrderBook.isEmpty (b : OrderBook) : Bool :=
  b.inner.isEmpty

/-- `OrderBook::cancel_order` on the transient working book: silent no-op
when the referent is absent, otherwise remove it and emit a Cancel result. -/
def cancelOrderFn (now : ℤ) (cancel_order : InnerOrder) (orderbook : List (ℕ × InnerOrder)) :
    List (ℕ × InnerOrder) × List OrderResult :=
  match cancel_order.order_id_ref with
  | some refId =>
    if (btGet refId orderbook).isSome then
      (btRemove refId orderbook,
       [{ symbol := cancel_order.symbol, value := 0, quantity := 0, date := now,
          typ := .Cancel, order_id := cancel_order.order_id, order_id_ref := some refId,
          exchange := cancel_order.exchange }])
    else (orderbook, [])
  | none => (orderbook, [])

/-- `OrderBook::modify_order` on the transient working book.  The source
unwraps `order_id_ref` (populated by the public constructor; `none` would
panic and is modelled as a no-op).  Note the source's exhaustion branch
removes `modify_order.order_id` — the modify's own id — from the working
book, not the referenced order (see claim C1). -/
def modifyOrderFn (now : ℤ) (modify_order : InnerOrder) (orderbook : List (ℕ × InnerOrder)) :
    List (ℕ × InnerOrder) × List OrderResult :=
  match modify_order.order_id_ref with
  | none => (orderbook, [])
  | some refId =>
    match btGet refId orderbook with
    | none => (orderbook, [])
    | some order_to_modify =>
      let qty_change := modify_order.qty
      let orderbook' :=
        if qty_change > 0 then
          btAdjust refId (fun t => { t with qty := t.qty + qty_change }) orderbook
        else if order_to_modify.qty + qty_change > 0 then
          btAdjust refId (fun t => { t with qty := t.qty + qty_change }) orderbook
        else
          btRemove modify_order.order_id orderbook
      (orderbook',
       [{ symbol := modify_order.symbol, value := 0, quantity := 0, date := now,
          typ := .Modify, order_id := modify_order.order_id, order_id_ref := some refId,
          exchange := modify_order.exchange }])

/-- The `pop_first` loop splitting Cancel/Modify entries (in ascending key
order) from the working book of fillable orders. -/
def splitCancelModify : List (ℕ × InnerOrder) → List InnerOrder × List (ℕ × InnerOrder)
  | [] => ([], [])
  | (oid, o) :: rest =>
    let s := splitCancelModify rest
    match o.order_type with
    | .Cancel | .Modify => (o :: s.1, s.2)
    | _ => (s.1, btInsert oid o s.2)

/-- Phase B of `execute_orders`: apply the split-out cancels and modifies to
the working book, accumulating their results. -/
def applyCancelModify (now : ℤ) : List InnerOrder → List (ℕ × InnerOrder) →
    List (ℕ × InnerOrder) × List OrderResult
  | [], ob => (ob, [])
  | o :: rest, ob =>
    let step :=
      match o.order_type with
      | .Cancel => cancelOrderFn now o ob
      | .Modify => modifyOrderFn now o ob
      | _ => (ob, [])
    let next := applyCancelModify now rest step.1
    (next.1, step.2 ++ next.2)

/-- Phase C of `execute_orders`: the `pop_first` matching loop.  Ineligible
orders and orders whose venue is unknown go to `unexecuted_orders`; a known
venue with no depth for the symbol silently drops the order (the source has
no `else` for that case — see claim C2); a fillable order that produced no
trade is kept. -/
def matchLoop (latency : LatencyModel) (prio : OrderBookOrderPriority)
    (quotes : DateDepth) (tk : FilledTrades) (now : ℤ) :
    List (ℕ × InnerOrder) → List (ℕ × InnerOrder) → FillTracker → List OrderResult →
    List (ℕ × InnerOrder) × FillTracker × List OrderResult
  | [], unexec, filled, results => (unexec, filled, results)
  | (oid, o) :: rest, unexec, filled, results =>
    if latency.cmpOrder now o = false then
      matchLoop latency prio quotes tk now rest (btInsert oid o unexec) filled results
    else
      match mapGet o.exchange quotes with
      | none => matchLoop latency prio quotes tk now rest (btInsert oid o unexec) filled results
      | some exchange =>
        match mapGet o.symbol exchange with
        | none => matchLoop latency prio quotes tk now rest unexec filled results
        | some depth =>
          match o.order_type with
          | .MarketBuy | .MarketSell | .LimitBuy | .LimitSell =>
            let fr := fillOrder depth o filled tk prio
            if fr.2.isEmpty then
              matchLoop latency prio quotes tk now rest (btInsert oid o unexec) fr.1 results
            else
              matchLoop latency prio quotes tk now rest unexec fr.1 (results ++ fr.2)
          | _ =>
            -- `_ => vec![]` in the source: an empty trade list keeps the order
            matchLoop latency prio quotes tk now rest (btInsert oid o unexec) filled results

/-- `OrderBook::execute_orders`. -/
def OrderBook.executeOrders (b : OrderBook) (quotes : DateDepth) (trades : DateTrade)
    (now : ℤ) : OrderBook × List OrderResult :=
  if b.isEmpty then (b, [])
  else
    let tk := buildTakerTrades trades
    let s := splitCancelModify b.inner
    let pb := applyCancelModify now s.1 s.2
    let m := matchLoop b.latency b.priority_setting quotes tk now pb.1 [] (fun _ _ => 0) []
    ({ b with inner := m.1 }, pb.2 ++ m.2.2)

/-! ## The V2 exchange wrapper (`UistV2`) -/

structure UistV2 where
  orderbook : OrderBook
  order_result_log : List OrderResult
  order_buffer : List Order

def UistV2.new : UistV2 :=
  { orderbook := OrderBook.new, order_result_log := [], order_buffer := [] }

def UistV2.insertOrder (u : UistV2) (order : Order) : UistV2 :=
  { u with order_buffer := u.order_buffer ++ [order] }

def isSellOrder (o : Order) : Bool :=
  match o.order_type with
  | .LimitSell | .MarketSell => true
  | _ => false

/-- `UistV2::sort_order_buffer`.  The source sorts with a comparator that
ignores its second argument (sells compare `Less`, everything else
`Greater`); for such a comparator Rust's stable sort moves the sells, in
their original order, in front of the rest. -/
def sortOrderBuffer (buffer : List Order) : List Order :=
  buffer.filter isSellOrder ++ buffer.filter (fun o => !isSellOrder o)

/-- The insertion loop in `UistV2::tick`: admit each buffered order,
collecting the assigned inner orders. -/
def insertBuffer : OrderBook → List Order → ℤ → OrderBook × List InnerOrder
  | b, [], _ => (b, [])
  | b, o :: rest, now =>
    let r := b.insertOrder o now
    let next := insertBuffer r.1 rest now
    (next.1, r.2 :: next.2)

/-- `UistV2::tick`: execute resting orders first, then admit the buffer. -/
def UistV2.tick (u : UistV2) (quotes : DateDepth) (trades : DateTrade) (now : ℤ) :
    UistV2 × List OrderResult × List InnerOrder :=
  let e := u.orderbook.executeOrders quotes trades now
  let ins := insertBuffer e.1 (sortOrderBuffer u.order_buffer) now
  ({ orderbook := ins.1, order_result_log := u.order_result_log ++ e.2, order_buffer := [] },
   e.2, ins.2)

/-! ## The V1 engine (`diana.rs` over the `penelope.rs` quote source) -/

structure PenelopeQuote where
  bid : ℚ
  ask : ℚ
  date : ℤ
  symbol : String
deriving DecidableEq

/-- `Penelope`: `HashMap<i64, HashMap<String, PenelopeQuote>>`.  Only lookup
matters; modelled as nested association lists. -/
abbrev Penelope := List (ℤ × List (String × PenelopeQuote))

def penelopeGetQuote (src : Penelope) (date : ℤ) (symbol : String) : Option PenelopeQuote :=
  match src.lookup date with
  | none => none
  | some row => mapGet symbol row

inductive DianaTradeType where
  | Buy
  | Sell
deriving DecidableEq

inductive DianaOrderType where
  | MarketSell
  | MarketBuy
  | LimitSell
  | LimitBuy
  | StopSell
  | StopBuy
deriving DecidableEq

structure DianaOrderImpl where
  order_type : DianaOrderType
  symbol : String
  shares : ℚ
  price : Option ℚ
deriving DecidableEq

structure DianaTrade where
  symbol : String
  value : ℚ
  quantity : ℚ
  date : ℤ
  typ : DianaTradeType
deriving DecidableEq

/-- Rust's `PartialOrd` `<=` on `Option<f64>` (no NaN): `None` is below every
`Some`. -/
def optLe : Option ℚ → Option ℚ → Bool
  | none, _ => true
  | some _, none => false
  | some a, some b => decide (a ≤ b)

/-- Rust's `PartialOrd` `>=` on `Option<f64>`. -/
def optGe (a b : Option ℚ) : Bool :=
  optLe b a

/-- The V1 book.  `inner` models the `HashMap<u64, DianaOrderImpl>`; Rust
leaves the iteration order of a `HashMap` unspecified, so the list order
stands for the (arbitrary) iteration order of one execution. -/
structure Diana where
  inner : List (ℕ × DianaOrderImpl)
  last : ℕ

def Diana.new : Diana :=
  { inner := [], last := 0 }

def Diana.deleteOrder (d : Diana) (order_id : ℕ) : Diana :=
  { d with inner := d.inner.filter (fun p => !decide (p.1 = order_id)) }

def Diana.insertOrder (d : Diana) (order : DianaOrderImpl) : Diana × ℕ :=
  ({ inner := d.inner ++ [(d.last, order)], last := d.last + 1 }, d.last)

/-- `execute_buy` in `Diana::execute_orders`: trade at the ask. -/
def dianaExecuteBuy (date : ℤ) (quote : PenelopeQuote) (order : DianaOrderImpl) : DianaTrade :=
  { symbol := order.symbol, value := quote.ask * order.shares, quantity := order.shares,
    date := date, typ := .Buy }

/-- `execute_sell` in `Diana::execute_orders`: trade at the bid. -/
def dianaExecuteSell (date : ℤ) (quote : PenelopeQuote) (order : DianaOrderImpl) : DianaTrade :=
  { symbol := order.symbol, value := quote.bid * order.shares, quantity := order.shares,
    date := date, typ := .Sell }

/-- The body of the execution loop of `Diana::execute_orders` for a single
order: `Some` trade when the order triggers.  Note the source compares
`Option<f64>` values directly (e.g. `order.price >= Some(quote.ask)`). -/
def dianaTryExecute (date : ℤ) (src : Penelope) (order : DianaOrderImpl) : Option DianaTrade :=
  match penelopeGetQuote src date order.symbol with
  | none => none
  | some quote =>
    match order.order_type with
    | .MarketBuy => some (dianaExecuteBuy date quote order)
    | .MarketSell => some (dianaExecuteSell date quote order)
    | .LimitBuy =>
      if optGe order.price (some quote.ask) then some (dianaExecuteBuy date quote order) else none
    | .LimitSell =>
      if optLe order.price (some quote.bid) then some (dianaExecuteSell date quote order) else none
    | .StopBuy =>
      if optLe order.price (some quote.ask) then some (dianaExecuteBuy date quote order) else none
    | .StopSell =>
      if optGe order.price (some quote.bid) then some (dianaExecuteSell date quote order) else none

/-- The execution loop: completed order ids and trades, both in iteration
order. -/
def dianaExecLoop (date : ℤ) (src : Penelope) :
    List (ℕ × DianaOrderImpl) → List ℕ × List DianaTrade
  | [] => ([], [])
  | (key, order) :: rest =>
    let next := dianaExecLoop date src rest
    match dianaTryExecute date src order with
    | some trade => (key :: next.1, trade :: next.2)
    | none => next

/-- `Diana::execute_orders`: run the loop, then delete the completed ids.
Also returns the completed id list (the loop's `completed_orderids`), which
records the emission order of the fills. -/
def Diana.executeOrders (d : Diana) (date : ℤ) (src : Penelope) :
    Diana × List DianaTrade × List ℕ :=
  if d.inner.isEmpty then (d, [], [])
  else
    let r := dianaExecLoop date src d.inner
    (r.1.foldl (fun acc oid => acc.deleteOrder oid) d, r.2, r.1)

/-! ## Admission sequences (for the id-uniqueness claim)

A run interleaving admissions with the operations that delete or consume
orders, recording the ids handed out. -/

inductive V2Op where
  | ins (o : Order) (now : ℤ)
  | exec (quotes : DateDepth) (trades : DateTrade) (now : ℤ)

def runV2 : OrderBook → List V2Op → OrderBook × List ℕ
  | b, [] => (b, [])
  | b, .ins o now :: rest =>
    let r := b.insertOrder o now
    let next := runV2 r.1 rest
    (next.1, r.2.order_id :: next.2)
  | b, .exec quotes trades now :: rest =>
    runV2 (b.executeOrders quotes trades now).1 rest

inductive V1Op where
  | ins (o : DianaOrderImpl)
  | del (order_id : ℕ)
  | exec (date : ℤ) (src : Penelope)

def runV1 : Diana → List V1Op → Diana × List ℕ
  | d, [] => (d, [])
  | d, .ins o :: rest =>
    let r := d.insertOrder o
    let next := runV1 r.1 rest
    (next.1, r.2 :: next.2)
  | d, .del oid :: rest => runV1 (d.deleteOrder oid) rest
  | d, .exec date src :: rest => runV1 (d.executeOrders date src).1 rest

/-! ## Measurement definitions for the invariant claims -/

/-- A result that is a fill (a Buy or Sell), as opposed to a Cancel/Modify
acknowledgement. -/
def isFillResult (r : OrderResult) : Bool :=
  match r.typ with
  | .Buy | .Sell => true
  | _ => false

/-- Total filled quantity emitted at a `(symbol, price)` pair.  A fill at
level price `p` carries `value = p * quantity`, which identifies its price
whenever the quantity is nonzero (a zero-quantity fill contributes zero
either way). -/
def fillsAtQty (res : List OrderResult) (sym : String) (p : ℚ) : ℚ :=
  ((res.filter (fun r =>
      isFillResult r && decide (r.symbol = sym) && decide (r.value = p * r.quantity))).map
    (fun r => r.quantity)).sum

/-- Displayed size of a depth snapshot at a price (both sides; the spec's
data invariants make at most one level per price). -/
def depthSizeAt (d : Depth) (p : ℚ) : ℚ :=
  (((d.bids ++ d.asks).filter (fun l => decide (l.price = p))).map (fun l => l.size)).sum

def allDepths (quotes : DateDepth) : List (String × Depth) :=
  (quotes.map Prod.snd).flatten

/-- Total displayed size for a symbol at a price across the quote mapping. -/
def displayedTotal (quotes : DateDepth) (sym : String) (p : ℚ) : ℚ :=
  (((allDepths quotes).filter (fun sd => decide (sd.1 = sym))).map
    (fun sd => depthSizeAt sd.2 p)).sum

/-- Total taker-print volume at a price across the tick window — the
preemption credit available at that price. -/
def takerCredit (trades : DateTrade) (p : ℚ) : ℚ :=
  (((allTrades trades).filter (fun t => decide (t.px = p))).map (fun t => t.sz)).sum

/-- Aggregated side = Ask taker volume at a price over a trade list (what
phase A feeds into the first tuple component). -/
def buyVolAt (ts : List Trade) (p : ℚ) : ℚ :=
  ((ts.filter (fun t => decide (t.px = p) && decide (t.side = Side.Ask))).map
    (fun t => t.sz)).sum

/-- Aggregated side = Bid taker volume at a price over a trade list. -/
def sellVolAt (ts : List Trade) (p : ℚ) : ℚ :=
  ((ts.filter (fun t => decide (t.px = p) && decide (t.side = Side.Bid))).map
    (fun t => t.sz)).sum

/-- Well-formedness of the V2 book, maintained by construction: every
entry's `order_id` field equals its key, keys are below the id counter, and
keys ascend (the `BTreeMap` representation invariant). -/
def BookWF (b : OrderBook) : Prop :=
  (∀ p ∈ b.inner, p.2.order_id = p.1 ∧ p.1 < b.last_order_id) ∧
    List.Sorted (· < ·) (b.inner.map Prod.fst)

/-! ## Concrete scenario inputs -/

/-- A resting limit buy for 100 shares. -/
def c1Rest : InnerOrder :=
  { order_type := .LimitBuy, symbol := "ABC", qty := 100, price := some 102,
    recieved_timestamp := 0, order_id := 0, order_id_ref := none, exchange := "X" }

/-- A Modify of order 0 with quantity delta −100, exhausting it. -/
def c1Mod : InnerOrder :=
  { order_type := .Modify, symbol := "ABC", qty := -100, price := none,
    recieved_timestamp := 0, order_id := 1, order_id_ref := some 0, exchange := "X" }

def c1Book : OrderBook :=
  { inner := [(0, c1Rest), (1, c1Mod)], latency := .None, last_order_id := 2,
    priority_setting := .AlwaysFirst }

def c1Quotes : DateDepth :=
  [("X", [("ABC", { bids := [], asks := [{ price := 102, size := 200 }], date := 100,
                    symbol := "ABC", exchange := "X" })])]

def c2Order : InnerOrder :=
  { order_type := .MarketBuy, symbol := "XYZ", qty := 10, price := none,
    recieved_timestamp := 0, order_id := 0, order_id_ref := none, exchange := "X" }

def c2Book : OrderBook :=
  { inner := [(0, c2Order)], latency := .None, last_order_id := 1,
    priority_setting := .AlwaysFirst }

/-- Quotes that know venue `X` but have no depth for symbol `XYZ`. -/
def c2Quotes : DateDepth :=
  [("X", [("ABC", { bids := [{ price := 100, size := 50 }],
                    asks := [{ price := 102, size := 50 }], date := 100,
                    symbol := "ABC", exchange := "X" })])]

/-- Resting order for the C4 witness, received at 99 under latency 1. -/
def c4Rest : InnerOrder :=
  { order_type := .LimitBuy, symbol := "ABC", qty := 10, price := some 103,
    recieved_timestamp := 99, order_id := 0, order_id_ref := none, exchange := "X" }

def c4Buf : Order :=
  { order_type := .MarketBuy, symbol := "ABC", qty := 5, price := none,
    order_id_ref := none, exchange := "X" }

def c4Uist : UistV2 :=
  { orderbook := { inner := [(0, c4Rest)], latency := .FixedPeriod 1, last_order_id := 1,
                   priority_setting := .AlwaysFirst },
    order_result_log := [], order_buffer := [c4Buf] }

/-- Resting limit buy used for the C5 counterexample: 50 shares at 100. -/
def c5Order : InnerOrder :=
  { order_type := .LimitBuy, symbol := "ABC", qty := 50, price := some 100,
    recieved_timestamp := 0, order_id := 0, order_id_ref := none, exchange := "X" }

def c5Book : OrderBook :=
  { inner := [(0, c5Order)], latency := .None, last_order_id := 1,
    priority_setting := .AlwaysFirst }

def c5Depth : Depth :=
  { bids := [{ price := 100, size := 1000 }], asks := [{ price := 102, size := 80 }],
    date := 100, symbol := "ABC", exchange := "X" }

def c5Quotes : DateDepth :=
  [("X", [("ABC", c5Depth)])]

/-- Taker prints at price 100: a `Bid`-side print of size 30 and an
`Ask`-side print of size 10, so the aggregated pair at 100 is
`(buy_vol, sell_vol) = (10, 30)`. -/
def c5Trades : DateTrade :=
  [(100, [{ coin := "ABC", side := .Bid, px := 100, sz := 30, time := 100, exchange := "X" },
          { coin := "ABC", side := .Ask, px := 100, sz := 10, time := 100, exchange := "X" }])]

/-- Two resting limit buys at 103 for the C9 counterexample. -/
def c9OrderA : InnerOrder :=
  { order_type := .LimitBuy, symbol := "ABC", qty := 80, price := some 103,
    recieved_timestamp := 0, order_id := 0, order_id_ref := none, exchange := "X" }

def c9OrderB : InnerOrder :=
  { order_type := .LimitBuy, symbol := "ABC", qty := 20, price := some 103,
    recieved_timestamp := 0, order_id := 1, order_id_ref := none, exchange := "X" }

def c9Book : OrderBook :=
  { inner := [(0, c9OrderA), (1, c9OrderB)], latency := .None, last_order_id := 2,
    priority_setting := .AlwaysFirst }

def c9Quotes : DateDepth :=
  [("X", [("ABC", { bids := [],
                    asks := [{ price := 102, size := 80 }, { price := 103, size := 20 }],
                    date := 100, symbol := "ABC", exchange := "X" })])]

/-- Resting limit buy for the C3 witness. -/
def c3Order : InnerOrder :=
  { order_type := .LimitBuy, symbol := "ABC", qty := 50, price := some 102,
    recieved_timestamp := 0, order_id := 0, order_id_ref := none, exchange := "X" }

/-- Book for the C3 witness: one resting limit buy. -/
def c3Book : OrderBook :=
  { inner := [(0, c3Order)], latency := .None, last_order_id := 1,
    priority_setting := .AlwaysFirst }

/-- Quotes for the C3 witness: one ask level below the order's limit. -/
def c3Quotes : DateDepth :=
  [("X", [("ABC", { bids := [], asks := [{ price := 101, size := 30 }],
                    date := 100, symbol := "ABC", exchange := "X" })])]

/-- Taker prints for the C3 witness: one print at the touch. -/
def c3Trades : DateTrade :=
  [(100, [{ coin := "ABC", side := Side.Ask, px := 101, sz := 5, time := 100,
            exchange := "X" }])]

/-- The order types split out before the V2 matching pass. -/
def isCancelModify : OrderType → Bool
  | .Cancel | .Modify => true
  | _ => false

/-- V1 book for the C6 witness: a limit buy at 105 (triggers against ask
102) and a limit buy at 95 (does not trigger). -/
def c6Book : Diana :=
  { inner := [(0, { order_type := .LimitBuy, symbol := "ABC", shares := 100,
                    price := some 105 }),
              (1, { order_type := .LimitBuy, symbol := "ABC", shares := 100,
                    price := some 95 })],
    last := 2 }

def c6Src : Penelope :=
  [(100, [("ABC", { bid := 101, ask := 102, date := 100, symbol := "ABC" })])]

/-- V1 book for the C7 counterexample, with the `HashMap` iteration order
visiting id 1 before id 0. -/
def c7Diana : Diana :=
  { inner := [(1, { order_type := .MarketBuy, symbol := "ABC", shares := 20, price := none }),
              (0, { order_type := .MarketBuy, symbol := "ABC", shares := 10, price := none })],
    last := 2 }

def c7Src : Penelope :=
  [(100, [("ABC", { bid := 101, ask := 102, date := 100, symbol := "ABC" })])]

/-- Claim-side V1 trigger predicate (claim C6's table): no quote → no
trigger; market orders always trigger; LimitBuy iff limit ≥ ask; LimitSell
iff limit ≤ bid; StopBuy iff stop ≤ ask; StopSell iff stop ≥ bid.  The
claim presupposes limit/stop orders carry a price; the `none` arm is
unreachable under that hypothesis. -/
def dianaSpecTrigger (date : ℤ) (src : Penelope) (o : DianaOrderImpl) : Bool :=
  match penelopeGetQuote src date o.symbol with
  | none => false
  | some q =>
    match o.order_type, o.price with
    | .MarketBuy, _ => true
    | .MarketSell, _ => true
    | .LimitBuy, some l => decide (q.ask ≤ l)
    | .LimitSell, some l => decide (l ≤ q.bid)
    | .StopBuy, some l => decide (l ≤ q.ask)
    | .StopSell, some l => decide (q.bid ≤ l)
    | _, none => false

/-- Claim-side V1 trade for a triggering order: the full share quantity in
one trade, buys at the ask and sells at the bid, `value = price × shares`.
The no-quote arm is never used (a quoteless order does not trigger). -/
def dianaSpecTrade (date : ℤ) (src : Penelope) (o : DianaOrderImpl) : DianaTrade :=
  match penelopeGetQuote src date o.symbol with
  | none =>
    { symbol := o.symbol, value := 0, quantity := o.shares, date := date, typ := .Buy }
  | some q =>
    match o.order_type with
    | .MarketBuy | .LimitBuy | .StopBuy =>
      { symbol := o.symbol, value := q.ask * o.shares, quantity := o.shares, date := date,
        typ := .Buy }
    | _ =>
      { symbol := o.symbol, value := q.bid * o.shares, quantity := o.shares, date := date,
        typ := .Sell }

/-- Modelled from the amended claim C9: the ask-side walk of a buy order
stops when the remaining quantity reaches zero or when it reaches a level
with price ≤ price_check whose unconsumed size is zero; levels with price
above price_check are skipped without stopping; every level visited with
price ≤ price_check contributes `min(remaining, size − F)` at its price. -/
def askWalkSpec (sym : String) (oid : ℕ) (exch : String) (date : ℤ) (pc : ℚ) :
    List Level → ℚ → FillTracker → List OrderResult
  | [], _, _ => []
  | a :: rest, remaining, f =>
    if remaining = 0 then []
    else if pc < a.price then askWalkSpec sym oid exch date pc rest remaining f
    else
      let avail := a.size - getFill f sym a.price
      if avail = 0 then []
      else
        let qty := min remaining avail
        { symbol := sym, value := a.price * qty, quantity := qty, date := date,
          typ := .Buy, order_id := oid, order_id_ref := none, exchange := exch } ::
          askWalkSpec sym oid exch date pc rest (remaining - qty) (insertFill f sym a.price qty)

/-- Modelled from the amended claim C5: the bid-side walk of a buy order
under `AlwaysFirst` priority.  Levels whose price differs from the price
check are skipped, as are price-check levels with no aggregated taker
entry; at a price-check level with taker entry `(buy_vol, sell_vol)` the
walk reads the *sell* volume: if `sell_vol − F[symbol, price]` is zero the
walk stops, otherwise it claims `qty = min(remaining, sell_vol − F)`,
emits a Buy at `level.price × qty`, records the fill in the tracker and
decrements the remaining quantity.  Returns `(remaining, tracker,
results)` so the recording and the decrement are part of the comparison. -/
def bidWalkSpec (sym : String) (oid : ℕ) (exch : String) (date : ℤ) (pc : ℚ)
    (tk : FilledTrades) : List Level → ℚ → FillTracker → ℚ × FillTracker × List OrderResult
  | [], remaining, f => (remaining, f, [])
  | b :: rest, remaining, f =>
    if b.price = pc then
      match tk pc with
      | some vol =>
        let avail := vol.2 - getFill f sym b.price
        if avail = 0 then (remaining, f, [])
        else
          let qty := min remaining avail
          let next := bidWalkSpec sym oid exch date pc tk rest (remaining - qty)
            (insertFill f sym b.price qty)
          (next.1, next.2.1,
            { symbol := sym, value := b.price * qty, quantity := qty, date := date,
              typ := .Buy, order_id := oid, order_id_ref := none, exchange := exch } ::
              next.2.2)
      | none => bidWalkSpec sym oid exch date pc tk rest remaining f
    else bidWalkSpec sym oid exch date pc tk rest remaining f

/-! # Theorems -/

/-! ## Association-list map lemmas -/

theorem btInsert_mem {k : ℕ} {v : InnerOrder} {l : List (ℕ × InnerOrder)}
    {p : ℕ × InnerOrder} (h : p ∈ btInsert k v l) : p = (k, v) ∨ p ∈ l := by
  induction l with
  | nil => simpa [btInsert] using h
  | cons q rest ih =>
    obtain ⟨k', v'⟩ := q
    by_cases h1 : k < k'
    · simp only [btInsert, if_pos h1, List.mem_cons] at h
      rcases h with h | h | h
      · exact Or.inl h
      · exact Or.inr (by simp [h])
      · exact Or.inr (List.mem_cons_of_mem _ h)
    · by_cases h2 : k = k'
      · simp only [btInsert, if_neg h1, if_pos h2, List.mem_cons] at h
        rcases h with h | h
        · exact Or.inl h
        · exact Or.inr (List.mem_cons_of_mem _ h)
      · simp only [btInsert, if_neg h1, if_neg h2, List.mem_cons] at h
        rcases h with h | h
        · exact Or.inr (by simp [h])
        · rcases ih h with h' | h'
          · exact Or.inl h'
          · exact Or.inr (List.mem_cons_of_mem _ h')

theorem btRemove_subset {k : ℕ} {l : List (ℕ × InnerOrder)} {p : ℕ × InnerOrder}
    (h : p ∈ btRemove k l) : p ∈ l :=
  List.mem_of_mem_filter h

theorem btAdjust_mem {k : ℕ} {f : InnerOrder → InnerOrder} {l : List (ℕ × InnerOrder)}
    {p : ℕ × InnerOrder} (h : p ∈ btAdjust k f l) :
    ∃ q ∈ l, p = q ∨ p = (q.1, f q.2) := by
  simp only [btAdjust, List.mem_map] at h
  obtain ⟨q, hq, he⟩ := h
  refine ⟨q, hq, ?_⟩
  by_cases hk : q.1 = k
  · right
    rw [← he, if_pos hk]
  · left
    rw [← he, if_neg hk]

/-! ## Claim C10: cancels and modifies never rest -/

theorem splitCancelModify_orders_types {l : List (ℕ × InnerOrder)} {p : ℕ × InnerOrder}
    (h : p ∈ (splitCancelModify l).2) :
    p.2.order_type ≠ .Cancel ∧ p.2.order_type ≠ .Modify := by
  induction l with
  | nil => simp [splitCancelModify] at h
  | cons q rest ih =>
    obtain ⟨oid, o⟩ := q
    rcases htyp : o.order_type with t | t | t | t | t | t <;>
      simp only [splitCancelModify, htyp] at h <;>
      first
        | exact ih h
        | (rcases btInsert_mem h with he | hm
           · subst he
             simp [htyp]
           · exact ih hm)

theorem cancelOrderFn_book_types (now : ℤ) (co : InnerOrder) (ob : List (ℕ × InnerOrder))
    {p : ℕ × InnerOrder} (h : p ∈ (cancelOrderFn now co ob).1) :
    ∃ q ∈ ob, p.2.order_type = q.2.order_type := by
  rcases href : co.order_id_ref with _ | refId
  · simp only [cancelOrderFn, href] at h
    exact ⟨p, h, rfl⟩
  · simp only [cancelOrderFn, href] at h
    by_cases hg : (btGet refId ob).isSome
    · rw [if_pos hg] at h
      exact ⟨p, btRemove_subset h, rfl⟩
    · rw [if_neg hg] at h
      exact ⟨p, h, rfl⟩

theorem modifyOrderFn_book_types (now : ℤ) (mo : InnerOrder) (ob : List (ℕ × InnerOrder))
    {p : ℕ × InnerOrder} (h : p ∈ (modifyOrderFn now mo ob).1) :
    ∃ q ∈ ob, p.2.order_type = q.2.order_type := by
  rcases href : mo.order_id_ref with _ | refId
  · simp only [modifyOrderFn, href] at h
    exact ⟨p, h, rfl⟩
  · simp only [modifyOrderFn, href] at h
    rcases hg : btGet refId ob with _ | tgt
    · rw [hg] at h
      exact ⟨p, h, rfl⟩
    · rw [hg] at h
      simp only at h
      split at h
      · obtain ⟨q, hq, hcase⟩ := btAdjust_mem h
        rcases hcase with he | he
        · exact ⟨q, hq, by rw [he]⟩
        · exact ⟨q, hq, by rw [he]⟩
      · split at h
        · obtain ⟨q, hq, hcase⟩ := btAdjust_mem h
          rcases hcase with he | he
          · exact ⟨q, hq, by rw [he]⟩
          · exact ⟨q, hq, by rw [he]⟩
        · exact ⟨p, btRemove_subset h, rfl⟩

theorem applyCancelModify_book_types (now : ℤ) (cams : List InnerOrder) :
    ∀ ob, ∀ p ∈ (applyCancelModify now cams ob).1,
      ∃ q ∈ ob, p.2.order_type = q.2.order_type := by
  induction cams with
  | nil =>
    intro ob p h
    exact ⟨p, h, rfl⟩
  | cons o rest ih =>
    intro ob p h
    simp only [applyCancelModify] at h
    rcases htyp : o.order_type with t | t | t | t | t | t <;> rw [htyp] at h <;>
      simp only at h
    case Cancel =>
      obtain ⟨q, hq, he⟩ := ih _ p h
      obtain ⟨r, hr, he'⟩ := cancelOrderFn_book_types now o ob hq
      exact ⟨r, hr, he.trans he'⟩
    case Modify =>
      obtain ⟨q, hq, he⟩ := ih _ p h
      obtain ⟨r, hr, he'⟩ := modifyOrderFn_book_types now o ob hq
      exact ⟨r, hr, he.trans he'⟩
    all_goals exact ih _ p h

theorem matchLoop_unexec_mem (latency : LatencyModel) (prio : OrderBookOrderPriority)
    (quotes : DateDepth) (tk : FilledTrades) (now : ℤ) (orders : List (ℕ × InnerOrder)) :
    ∀ unexec f res p, p ∈ (matchLoop latency prio quotes tk now orders unexec f res).1 →
      p ∈ unexec ∨ p ∈ orders := by
  induction orders with
  | nil =>
    intro unexec f res p h
    exact Or.inl h
  | cons q rest ih =>
    intro unexec f res p h
    obtain ⟨oid, o⟩ := q
    have hcase : ∀ {X : List (ℕ × InnerOrder)} {f' : FillTracker} {res' : List OrderResult},
        p ∈ (matchLoop latency prio quotes tk now rest X f' res').1 →
        X = btInsert oid o unexec ∨ X = unexec → p ∈ unexec ∨ p ∈ (oid, o) :: rest := by
      intro X f' res' hm hX
      rcases ih X f' res' p hm with hu | hr
      · rcases hX with rfl | rfl
        · rcases btInsert_mem hu with he | hu'
          · exact Or.inr (he ▸ List.mem_cons_self _ _)
          · exact Or.inl hu'
        · exact Or.inl hu
      · exact Or.inr (List.mem_cons_of_mem _ hr)
    simp only [matchLoop] at h
    repeat' split at h
    all_goals
      first
        | exact hcase h (Or.inl rfl)
        | exact hcase h (Or.inr rfl)

/-- Claim C10: after `execute_orders` returns, the resting book contains no
Cancel and no Modify order — every Cancel/Modify present when the call ran
was split out and dropped, whether or not its referent existed and whether
or not any result was emitted. -/
theorem c10_no_cancel_modify_rests (b : OrderBook) (quotes : DateDepth) (trades : DateTrade)
    (now : ℤ) : ∀ p ∈ (b.executeOrders quotes trades now).1.inner,
      p.2.order_type ≠ .Cancel ∧ p.2.order_type ≠ .Modify := by
  intro p hp
  by_cases he : b.isEmpty
  · have : b.inner = [] := by
      simpa [OrderBook.isEmpty, List.isEmpty_iff] using he
    rw [OrderBook.executeOrders, if_pos he] at hp
    rw [this] at hp
    simp at hp
  · rw [OrderBook.executeOrders, if_neg he] at hp
    simp only at hp
    rcases matchLoop_unexec_mem _ _ _ _ _ _ _ _ _ p hp with h0 | hm
    · simp at h0
    · obtain ⟨q, hq, he'⟩ := applyCancelModify_book_types now _ _ p hm
      have := splitCancelModify_orders_types hq
      rw [he']
      exact this

/-- Witness for `c10_no_cancel_modify_rests`: a book holding a limit buy, a
Cancel with an absent referent and a Modify with an absent referent; after
the call the limit buy (ineligible: no quotes) is the only resting order. -/
theorem c10_witness :
    ({ inner := [(0, c1Rest),
                 (1, { order_type := .Cancel, symbol := "ABC", qty := 0, price := none,
                       recieved_timestamp := 0, order_id := 1, order_id_ref := some 7,
                       exchange := "X" }),
                 (2, { order_type := .Modify, symbol := "ABC", qty := 5, price := none,
                       recieved_timestamp := 0, order_id := 2, order_id_ref := some 7,
                       exchange := "X" })],
       latency := .None, last_order_id := 3,
       priority_setting := .AlwaysFirst } : OrderBook).executeOrders [] [] 100
      = ({ inner := [(0, c1Rest)], latency := .None, last_order_id := 3,
           priority_setting := .AlwaysFirst }, []) ∧
    c1Rest.order_type ≠ OrderType.Cancel ∧ c1Rest.order_type ≠ OrderType.Modify := by
  constructor
  · norm_num +decide [OrderBook.executeOrders, OrderBook.isEmpty, c1Rest, splitCancelModify,
      applyCancelModify, modifyOrderFn, cancelOrderFn, btGet, btRemove, btAdjust, btInsert,
      matchLoop, LatencyModel.cmpOrder, mapGet]
  · exact c10_no_cancel_modify_rests
      { inner := [(0, c1Rest),
                  (1, { order_type := .Cancel, symbol := "ABC", qty := 0, price := none,
                        recieved_timestamp := 0, order_id := 1, order_id_ref := some 7,
                        exchange := "X" }),
                  (2, { order_type := .Modify, symbol := "ABC", qty := 5, price := none,
                        recieved_timestamp := 0, order_id := 2, order_id_ref := some 7,
                        exchange := "X" })],
        latency := .None, last_order_id := 3, priority_setting := .AlwaysFirst }
      [] [] 100 (0, c1Rest)
      (by norm_num +decide [OrderBook.executeOrders, OrderBook.isEmpty, c1Rest,
        splitCancelModify, applyCancelModify, modifyOrderFn, cancelOrderFn, btGet, btRemove,
        btAdjust, btInsert, matchLoop, LatencyModel.cmpOrder, mapGet])

/-- The ask walk of a buy order skips every level priced above the price
check, leaving the state untouched. -/
theorem askWalk_above_pc (o : InnerOrder) (tk : FilledTrades) (prio : OrderBookOrderPriority)
    (pc : ℚ) (date : ℤ) (asks : List Level) (h : ∀ a ∈ asks, ¬ a.price ≤ pc)
    (toFill : ℚ) (f : FillTracker) :
    askWalk o tk prio true pc date asks toFill f = (toFill, f, []) := by
  induction asks with
  | nil => rfl
  | cons a rest ih =>
    have ha := h a (List.mem_cons_self a rest)
    have h1 : ¬ (prio = OrderBookOrderPriority.AlwaysFirst ∧ (true : Bool) = false ∧
        a.price = pc) := by simp
    have h2 : ¬ (True ∧ a.price ≤ pc) := by simp [ha]
    simp only [askWalk, if_neg h1, if_neg h2]
    exact ih (fun a' ha' => h a' (List.mem_cons_of_mem a ha'))

/-- Claim C1, failing input.  The claim says a Modify whose delta exhausts
the referenced resting order removes that order (the one named by
`order_id_ref`) so it can produce no fills in this or any later tick.  In
the source, the exhaustion branch removes `modify_order.order_id` — the
modify's own id, which is never in the working book — so the referenced
order 0 survives untouched and fills for its full 100 shares in the very
same call, right after the Modify result (value 0, qty 0) is emitted. -/
theorem c1_exhausting_modify_leaves_target_filling :
    (c1Book.executeOrders c1Quotes [] 100).2 =
      [{ symbol := "ABC", value := 0, quantity := 0, date := 100, typ := .Modify,
         order_id := 1, order_id_ref := some 0, exchange := "X" },
       { symbol := "ABC", value := 10200, quantity := 100, date := 100, typ := .Buy,
         order_id := 0, order_id_ref := none, exchange := "X" }] := by
  norm_num [OrderBook.executeOrders, OrderBook.isEmpty, c1Book, c1Rest, c1Mod, c1Quotes,
    splitCancelModify, applyCancelModify, modifyOrderFn, cancelOrderFn, btGet, btRemove,
    btAdjust, btInsert, matchLoop, LatencyModel.cmpOrder, mapGet, fillOrder, bidWalk,
    askWalk, isBuyType, priceCheck, getFill, insertFill, buildTakerTrades, allTrades,
    addTrade]

/-- Claim C2, failing input.  The claim says an order whose venue is known
but whose symbol has no depth entry is left resting.  The matching loop of
the source has no `else` for that case: the order is popped and never
re-inserted, so it silently vanishes from the book with no result.  (The
unknown-venue case, by contrast, does keep the order, as the third conjunct
shows.) -/
theorem c2_missing_symbol_silently_drops_order :
    (c2Book.executeOrders c2Quotes [] 100).1.inner = [] ∧
    (c2Book.executeOrders c2Quotes [] 100).2 = [] ∧
    (c2Book.executeOrders [] [] 100).1.inner = [(0, c2Order)] := by
  refine ⟨?_, ?_, ?_⟩ <;>
  norm_num +decide [OrderBook.executeOrders, OrderBook.isEmpty, c2Book, c2Order, c2Quotes,
    splitCancelModify, applyCancelModify, modifyOrderFn, cancelOrderFn, btGet, btRemove,
    btAdjust, btInsert, matchLoop, LatencyModel.cmpOrder, mapGet, fillOrder, bidWalk,
    askWalk, isBuyType, priceCheck, getFill, insertFill, buildTakerTrades, allTrades,
    addTrade]

/-- Claim C5, counterexample.  At price 100 the aggregated taker volumes
are `(buy_vol, sell_vol) = (10, 30)`: the side = Ask prints sum to 10 and
the side = Bid prints to 30.  The claim says the buy order's preemption
claim at its touch level is `min(remaining, buy_vol − F) = min(50, 10) =
10`; the source uses the *sell* volume and fills 30. -/
theorem c5_preemption_uses_sell_volume :
    (c5Book.executeOrders c5Quotes c5Trades 100).2 =
      [{ symbol := "ABC", value := 3000, quantity := 30, date := 100, typ := .Buy,
         order_id := 0, order_id_ref := none, exchange := "X" }] ∧
    buildTakerTrades c5Trades 100 = some (10, 30) ∧
    (30 : ℚ) ≠ min 50 10 := by
  refine ⟨?_, ?_, by norm_num⟩ <;>
  norm_num +decide [OrderBook.executeOrders, OrderBook.isEmpty, c5Book, c5Order, c5Quotes,
    c5Depth, c5Trades, splitCancelModify, applyCancelModify, modifyOrderFn, cancelOrderFn,
    btGet, btRemove, btAdjust, btInsert, matchLoop, LatencyModel.cmpOrder, mapGet, fillOrder,
    bidWalk, askWalk, isBuyType, priceCheck, getFill, insertFill, buildTakerTrades,
    allTrades, addTrade]

/-- Claim C5 as amended: for any buy-side bid walk under `AlwaysFirst` —
any order, any aggregated taker mapping, any level list, any remaining
quantity and any (shared) fill tracker — the source walk returns exactly
the amended spec's `(remaining, tracker, results)` triple: price-check
levels with a taker entry claim `min(remaining, sell_vol − F[symbol,
price])` against the aggregated side = Bid *sell* volume (not the
side = Ask buy volume the claim names), emit a Buy at `level.price × qty`,
record the fill and decrement the remaining quantity; an exhausted entry
stops the walk; other levels are skipped. -/
theorem c5_amended_preemption_claims_sell_volume (o : InnerOrder) (tk : FilledTrades)
    (pc : ℚ) (date : ℤ) (bids : List Level) (toFill : ℚ) (f : FillTracker) :
    bidWalk o tk .AlwaysFirst true pc date bids toFill f =
      bidWalkSpec o.symbol o.order_id o.exchange date pc tk bids toFill f := by
  induction bids generalizing toFill f with
  | nil => rfl
  | cons b rest ih =>
    by_cases hpe : b.price = pc
    · subst hpe
      rcases htk : tk b.price with _ | vol
      · simp [bidWalk, bidWalkSpec, htk, ih]
      · by_cases hz : vol.2 - getFill f o.symbol b.price = 0
        · simp [bidWalk, bidWalkSpec, htk, hz]
        · have hqty : (if vol.2 - getFill f o.symbol b.price ≥ toFill then toFill
              else vol.2 - getFill f o.symbol b.price) =
              min toFill (vol.2 - getFill f o.symbol b.price) := by
            simp [min_def, ge_iff_le]
          simp [bidWalk, bidWalkSpec, htk, hz, hqty, ih]
    · simp [bidWalk, bidWalkSpec, hpe, ih]

/-- Claim C9, counterexample.  Two limit buys at 103 against ask levels
`(102, 80)` and `(103, 20)`.  Order 0 consumes level 102 in full.  For
order 1 the level `(103, 20)` satisfies `price ≤ price_check` and has 20
unconsumed shares, so per the claim it must contribute a fill; in the
source the walk reaches level 102 first, finds `level.size − F = 0` and
*breaks*, so order 1 fills nothing and stays resting. -/
theorem c9_walk_breaks_on_exhausted_level :
    (c9Book.executeOrders c9Quotes [] 100).2 =
      [{ symbol := "ABC", value := 8160, quantity := 80, date := 100, typ := .Buy,
         order_id := 0, order_id_ref := none, exchange := "X" }] ∧
    (c9Book.executeOrders c9Quotes [] 100).1.inner = [(1, c9OrderB)] := by
  constructor <;>
  norm_num +decide [OrderBook.executeOrders, OrderBook.isEmpty, c9Book, c9OrderA, c9OrderB,
    c9Quotes, splitCancelModify, applyCancelModify, modifyOrderFn, cancelOrderFn, btGet,
    btRemove, btAdjust, btInsert, matchLoop, LatencyModel.cmpOrder, mapGet, fillOrder,
    bidWalk, askWalk, isBuyType, priceCheck, getFill, insertFill, buildTakerTrades,
    allTrades, addTrade]

/-- `askWalkSpec` emits nothing once the remaining quantity is zero. -/
theorem askWalkSpec_zero (sym : String) (oid : ℕ) (exch : String) (date : ℤ) (pc : ℚ)
    (asks : List Level) (f : FillTracker) :
    askWalkSpec sym oid exch date pc asks 0 f = [] := by
  cases asks with
  | nil => rfl
  | cons a rest => simp [askWalkSpec]

/-- Claim C9 as amended: for a buy order with positive remaining quantity,
distinct ask prices and a tracker not exceeding any level's displayed size,
the source's ask walk emits exactly the fills described by the amended
walk: stop at zero remaining or at the first level with
`price ≤ price_check` whose unconsumed size is zero; skip levels above the
price check; otherwise claim `min(remaining, size − F)`. -/
theorem c9_amended_ask_walk (o : InnerOrder) (tk : FilledTrades)
    (prio : OrderBookOrderPriority) (pc : ℚ) (date : ℤ) (asks : List Level) (toFill : ℚ)
    (f : FillTracker) (h0 : 0 < toFill) (hnd : (asks.map Level.price).Nodup)
    (hf : ∀ a ∈ asks, getFill f o.symbol a.price ≤ a.size) :
    (askWalk o tk prio true pc date asks toFill f).2.2 =
      askWalkSpec o.symbol o.order_id o.exchange date pc asks toFill f := by
  induction asks generalizing toFill f with
  | nil => rfl
  | cons a rest ih =>
    have hcons : a.price ∉ rest.map Level.price ∧ (rest.map Level.price).Nodup := by
      rw [List.map_cons, List.nodup_cons] at hnd
      exact hnd
    have hfr : ∀ a' ∈ rest, getFill f o.symbol a'.price ≤ a'.size :=
      fun a' ha' => hf a' (List.mem_cons_of_mem a ha')
    by_cases hle : a.price ≤ pc
    · by_cases hz : a.size - getFill f o.symbol a.price = 0
      · simp [askWalk, askWalkSpec, hle, hz, ne_of_gt h0, not_lt.mpr hle]
      · have hqty : (if a.size - getFill f o.symbol a.price ≥ toFill then toFill
            else a.size - getFill f o.symbol a.price) =
            min toFill (a.size - getFill f o.symbol a.price) := by
          simp [min_def, ge_iff_le]
        have hf' : ∀ a' ∈ rest, getFill (insertFill f o.symbol a.price
            (min toFill (a.size - getFill f o.symbol a.price))) o.symbol a'.price ≤ a'.size := by
          intro a' ha'
          have hpne : ¬ a'.price = a.price := fun he =>
            hcons.1 (he ▸ List.mem_map_of_mem Level.price ha')
          simpa [getFill, insertFill, hpne] using hfr a' ha'
        by_cases hfin : toFill - min toFill (a.size - getFill f o.symbol a.price) = 0
        · simp [askWalk, askWalkSpec, hle, hz, hqty, hfin, ne_of_gt h0, not_lt.mpr hle,
            askWalkSpec_zero]
        · have h0' : 0 < toFill - min toFill (a.size - getFill f o.symbol a.price) :=
            lt_of_le_of_ne (sub_nonneg.mpr (min_le_left _ _)) (Ne.symm hfin)
          simp only [askWalk, askWalkSpec]
          simp [hle, hz, hqty, hfin, ne_of_gt h0, not_lt.mpr hle]
          exact ih _ _ h0' hcons.2 hf'
    · simp [askWalk, askWalkSpec, hle, not_le.mp hle, ne_of_gt h0]
      exact ih _ _ h0 hcons.2 hfr

/-- Witness for `c5_amended_preemption_claims_sell_volume` at the C5 input:
the source walk and the amended spec walk coincide, and the spec walk
claims `min(50, sell_vol − 0) = min(50, 30) = 30` shares at the touch,
leaving 20 to fill. -/
theorem c5_amended_witness :
    bidWalk c5Order (buildTakerTrades c5Trades) .AlwaysFirst true 100 100
        c5Depth.bids 50 (fun _ _ => 0) =
      bidWalkSpec c5Order.symbol c5Order.order_id c5Order.exchange 100 100
        (buildTakerTrades c5Trades) c5Depth.bids 50 (fun _ _ => 0) ∧
    (bidWalkSpec c5Order.symbol c5Order.order_id c5Order.exchange 100 100
        (buildTakerTrades c5Trades) c5Depth.bids 50 (fun _ _ => 0)).2.2 =
      [{ symbol := "ABC", value := 3000, quantity := 30, date := 100, typ := .Buy,
         order_id := 0, order_id_ref := none, exchange := "X" }] ∧
    (bidWalkSpec c5Order.symbol c5Order.order_id c5Order.exchange 100 100
        (buildTakerTrades c5Trades) c5Depth.bids 50 (fun _ _ => 0)).1 = 20 := by
  refine ⟨c5_amended_preemption_claims_sell_volume c5Order (buildTakerTrades c5Trades)
    100 100 c5Depth.bids 50 (fun _ _ => 0), ?_, ?_⟩ <;>
  norm_num +decide [bidWalkSpec, c5Order, c5Depth, buildTakerTrades, allTrades, c5Trades,
    addTrade, getFill, insertFill]

/-- Witness for `c9_amended_ask_walk` at the C9 book shape: a buy walk over
levels `(102, 80)` and `(103, 20)` with 90 to fill. -/
theorem c9_amended_witness :
    (0 : ℚ) < 90 ∧
    (askWalk c9OrderA (fun _ => none) .AlwaysFirst true 103 100
        [{ price := 102, size := 80 }, { price := 103, size := 20 }] 90 (fun _ _ => 0)).2.2 =
      askWalkSpec "ABC" 0 "X" 100 103
        [{ price := 102, size := 80 }, { price := 103, size := 20 }] 90 (fun _ _ => 0) := by
  refine ⟨by norm_num, ?_⟩
  have h := c9_amended_ask_walk c9OrderA (fun _ => none) .AlwaysFirst 103 100
    [{ price := 102, size := 80 }, { price := 103, size := 20 }] 90 (fun _ _ => 0)
    (by norm_num) (by norm_num) (by norm_num [getFill])
  simpa [c9OrderA] using h

/-! ## Claim C8: monotone, unique order ids -/

theorem executeOrders_last (b : OrderBook) (quotes : DateDepth) (trades : DateTrade)
    (now : ℤ) : (b.executeOrders quotes trades now).1.last_order_id = b.last_order_id := by
  rw [OrderBook.executeOrders]
  split <;> rfl

theorem foldl_deleteOrder_last (ids : List ℕ) :
    ∀ d : Diana, (ids.foldl (fun acc oid => acc.deleteOrder oid) d).last = d.last := by
  induction ids with
  | nil => intro d; rfl
  | cons i rest ih =>
    intro d
    rw [List.foldl_cons]
    simpa [Diana.deleteOrder] using ih (d.deleteOrder i)

theorem dianaExecuteOrders_last (d : Diana) (date : ℤ) (src : Penelope) :
    (d.executeOrders date src).1.last = d.last := by
  rw [Diana.executeOrders]
  split
  · rfl
  · exact foldl_deleteOrder_last _ d

theorem runV2_ids_lb (ops : List V2Op) :
    ∀ b : OrderBook, ∀ i ∈ (runV2 b ops).2, b.last_order_id ≤ i := by
  induction ops with
  | nil =>
    intro b i h
    simp [runV2] at h
  | cons op rest ih =>
    intro b i h
    cases op with
    | ins o now =>
      simp only [runV2, OrderBook.insertOrder, List.mem_cons] at h
      rcases h with rfl | h
      · exact le_refl _
      · have := ih _ i h
        simp only at this
        omega
    | exec q t now =>
      simp only [runV2] at h
      have := ih _ i h
      rwa [executeOrders_last] at this

theorem runV2_ids_sorted (ops : List V2Op) :
    ∀ b : OrderBook, List.Sorted (· < ·) (runV2 b ops).2 := by
  induction ops with
  | nil =>
    intro b
    simp [runV2]
  | cons op rest ih =>
    intro b
    cases op with
    | ins o now =>
      simp only [runV2]
      rw [List.sorted_cons]
      refine ⟨?_, ih _⟩
      intro i hi
      have := runV2_ids_lb rest _ i hi
      simp only [OrderBook.insertOrder] at this ⊢
      omega
    | exec q t now =>
      simpa [runV2] using ih _

theorem runV1_ids_lb (ops : List V1Op) :
    ∀ d : Diana, ∀ i ∈ (runV1 d ops).2, d.last ≤ i := by
  induction ops with
  | nil =>
    intro d i h
    simp [runV1] at h
  | cons op rest ih =>
    intro d i h
    cases op with
    | ins o =>
      simp only [runV1, Diana.insertOrder, List.mem_cons] at h
      rcases h with rfl | h
      · exact le_refl _
      · have := ih _ i h
        simp only at this
        omega
    | del oid =>
      simp only [runV1] at h
      have := ih _ i h
      simpa [Diana.deleteOrder] using this
    | exec date src =>
      simp only [runV1] at h
      have := ih _ i h
      rwa [dianaExecuteOrders_last] at this

theorem runV1_ids_sorted (ops : List V1Op) :
    ∀ d : Diana, List.Sorted (· < ·) (runV1 d ops).2 := by
  induction ops with
  | nil =>
    intro d
    simp [runV1]
  | cons op rest ih =>
    intro d
    cases op with
    | ins o =>
      simp only [runV1]
      rw [List.sorted_cons]
      refine ⟨?_, ih _⟩
      intro i hi
      have := runV1_ids_lb rest _ i hi
      simp only [Diana.insertOrder] at this ⊢
      omega
    | del oid =>
      simpa [runV1] using ih _
    | exec date src =>
      simpa [runV1] using ih _

/-- Claim C8: along any interleaving of admissions with executions (and, in
V1, deletions), the ids handed out strictly increase and are never reused —
the counter is never decremented or reset.  Holds for both engines from any
starting state. -/
theorem c8_monotone_unique_ids (b : OrderBook) (ops : List V2Op) (d : Diana)
    (dops : List V1Op) :
    List.Sorted (· < ·) (runV2 b ops).2 ∧ (runV2 b ops).2.Nodup ∧
    List.Sorted (· < ·) (runV1 d dops).2 ∧ (runV1 d dops).2.Nodup :=
  ⟨runV2_ids_sorted ops b, (runV2_ids_sorted ops b).nodup,
   runV1_ids_sorted dops d, (runV1_ids_sorted dops d).nodup⟩

/-! ## Claim C6: the V1 trigger table -/

theorem keys_nodup_eq {α : Type} {l : List (ℕ × α)} (h : (l.map Prod.fst).Nodup)
    {p q : ℕ × α} (hp : p ∈ l) (hq : q ∈ l) (he : p.1 = q.1) : p = q := by
  induction l with
  | nil => cases hp
  | cons r rest ih =>
    rw [List.map_cons, List.nodup_cons] at h
    rcases List.mem_cons.mp hp with rfl | hp'
    · rcases List.mem_cons.mp hq with rfl | hq'
      · rfl
      · exact absurd (he ▸ List.mem_map_of_mem Prod.fst hq') h.1
    · rcases List.mem_cons.mp hq with rfl | hq'
      · exact absurd (he ▸ List.mem_map_of_mem Prod.fst hp') h.1
      · exact ih h.2 hp' hq'

theorem dianaTryExecute_eq (date : ℤ) (src : Penelope) (o : DianaOrderImpl)
    (hp : o.price.isSome = true ∨ o.order_type = .MarketBuy ∨
      o.order_type = .MarketSell) :
    dianaTryExecute date src o =
      if dianaSpecTrigger date src o then some (dianaSpecTrade date src o) else none := by
  rcases hq : penelopeGetQuote src date o.symbol with _ | q
  · cases hot : o.order_type <;>
      simp [dianaTryExecute, dianaSpecTrigger, hq, hot]
  · cases hot : o.order_type
    case MarketBuy =>
      simp [dianaTryExecute, dianaSpecTrigger, dianaSpecTrade, dianaExecuteBuy, hq, hot]
    case MarketSell =>
      simp [dianaTryExecute, dianaSpecTrigger, dianaSpecTrade, dianaExecuteSell, hq, hot]
    all_goals
      rcases hp with hps | h | h
      · obtain ⟨l, hl⟩ := Option.isSome_iff_exists.mp hps
        simp [dianaTryExecute, dianaSpecTrigger, dianaSpecTrade, dianaExecuteBuy,
          dianaExecuteSell, optGe, optLe, hq, hot, hl]
      · rw [hot] at h
        cases h
      · rw [hot] at h
        cases h

theorem dianaExecLoop_eq (date : ℤ) (src : Penelope) :
    ∀ l : List (ℕ × DianaOrderImpl),
      (∀ p ∈ l, p.2.price.isSome = true ∨ p.2.order_type = .MarketBuy ∨
        p.2.order_type = .MarketSell) →
      dianaExecLoop date src l =
        ((l.filter (fun p => dianaSpecTrigger date src p.2)).map Prod.fst,
         (l.filter (fun p => dianaSpecTrigger date src p.2)).map
           (fun p => dianaSpecTrade date src p.2)) := by
  intro l
  induction l with
  | nil => intro _; rfl
  | cons p rest ih =>
    intro hp
    obtain ⟨key, o⟩ := p
    have h1 := dianaTryExecute_eq date src o
      (by simpa using hp (key, o) (List.mem_cons_self _ _))
    have h2 := ih (fun q hq => hp q (List.mem_cons_of_mem _ hq))
    by_cases ht : dianaSpecTrigger date src o = true
    · simp [dianaExecLoop, h1, h2, ht, List.filter_cons]
    · simp [dianaExecLoop, h1, h2, ht, List.filter_cons]

theorem foldl_deleteOrder_eq (ids : List ℕ) :
    ∀ d : Diana,
      ids.foldl (fun acc oid => acc.deleteOrder oid) d =
        { inner := d.inner.filter (fun p => !decide (p.1 ∈ ids)), last := d.last } := by
  induction ids with
  | nil =>
    intro d
    cases d
    simp
  | cons i rest ih =>
    intro d
    rw [List.foldl_cons, ih]
    simp only [Diana.deleteOrder, Diana.mk.injEq, List.filter_filter, and_true]
    apply List.filter_congr
    intro p _
    simp only [List.mem_cons]
    cases hd : decide (p.1 = i) <;> cases hd' : decide (p.1 ∈ rest) <;> simp_all

/-- Claim C6: the V1 engine triggers exactly per the table — no quote: rest;
MarketBuy/MarketSell always; LimitBuy iff limit ≥ ask; LimitSell iff limit ≤
bid; StopBuy iff stop ≤ ask; StopSell iff stop ≥ bid, buys at the ask and
sells at the bid.  A triggering order emits one full-quantity trade with
`value = price × shares` and its id leaves the book; all others remain.
Hypotheses: limit/stop orders carry a price, and book keys are distinct (the
`HashMap` invariant). -/
theorem c6_v1_trigger_table (d : Diana) (date : ℤ) (src : Penelope)
    (hp : ∀ p ∈ d.inner, p.2.price.isSome = true ∨ p.2.order_type = .MarketBuy ∨
      p.2.order_type = .MarketSell)
    (hnd : (d.inner.map Prod.fst).Nodup) :
    d.executeOrders date src =
      ({ inner := d.inner.filter (fun p => !dianaSpecTrigger date src p.2), last := d.last },
       (d.inner.filter (fun p => dianaSpecTrigger date src p.2)).map
         (fun p => dianaSpecTrade date src p.2),
       (d.inner.filter (fun p => dianaSpecTrigger date src p.2)).map Prod.fst) := by
  obtain ⟨din, dlast⟩ := d
  simp only at hp hnd ⊢
  rw [Diana.executeOrders]
  by_cases he : din.isEmpty
  · have hd : din = [] := by simpa [List.isEmpty_iff] using he
    subst hd
    simp
  · have he' : ({ inner := din, last := dlast } : Diana).inner.isEmpty = false := by
      simpa using Bool.of_not_eq_true he
    rw [if_neg (by simp [he'])]
    rw [dianaExecLoop_eq date src din hp]
    simp only [Prod.mk.injEq, and_true]
    rw [foldl_deleteOrder_eq]
    simp only [Diana.mk.injEq, and_true]
    apply List.filter_congr
    intro p hpin
    have hiff : p.1 ∈ (List.filter (fun q => dianaSpecTrigger date src q.2) din).map
        Prod.fst ↔ dianaSpecTrigger date src p.2 = true := by
      constructor
      · intro hm
        obtain ⟨q, hq, heq⟩ := List.mem_map.mp hm
        have hq' := List.mem_of_mem_filter hq
        have htq := List.of_mem_filter hq
        have hqp : q = p := keys_nodup_eq hnd hq' hpin heq
        rwa [hqp] at htq
      · intro ht
        exact List.mem_map.mpr ⟨p, List.mem_filter.mpr ⟨hpin, ht⟩, rfl⟩
    cases ht : dianaSpecTrigger date src p.2 <;>
      simp [hiff, ht]

/-- Witness for `c6_v1_trigger_table`: two limit buys against `bid 101 /
ask 102`; the one priced 105 triggers and leaves the book, the one priced
95 stays. -/
theorem c6_witness :
    (c6Book.inner.map Prod.fst).Nodup ∧
    c6Book.executeOrders 100 c6Src =
      ({ inner := c6Book.inner.filter (fun p => !dianaSpecTrigger 100 c6Src p.2),
         last := c6Book.last },
       (c6Book.inner.filter (fun p => dianaSpecTrigger 100 c6Src p.2)).map
         (fun p => dianaSpecTrade 100 c6Src p.2),
       (c6Book.inner.filter (fun p => dianaSpecTrigger 100 c6Src p.2)).map Prod.fst) := by
  exact ⟨by decide, c6_v1_trigger_table c6Book 100 c6Src (by decide) (by decide)⟩

/-- Claim C7, counterexample (the V1 half).  Diana's resting book is a Rust
`HashMap`, whose iteration order is unspecified; with an iteration order
that visits id 1 before id 0, both market buys trigger and the fills are
emitted for id 1 first (quantities 20 then 10), not in ascending id order.
The completed-id list the loop itself builds is `[1, 0]`. -/
theorem c7_v1_fills_not_ascending :
    (c7Diana.executeOrders 100 c7Src).2.2 = [1, 0] ∧
    ¬ List.Sorted (· ≤ ·) (c7Diana.executeOrders 100 c7Src).2.2 ∧
    (c7Diana.executeOrders 100 c7Src).2.1.map (fun t => t.quantity) = [20, 10] := by
  have h : (c7Diana.executeOrders 100 c7Src).2.2 = [1, 0] := by
    norm_num +decide [Diana.executeOrders, c7Diana, c7Src, dianaExecLoop, dianaTryExecute,
      penelopeGetQuote, mapGet, dianaExecuteBuy, dianaExecuteSell, optGe, optLe]
  refine ⟨h, ?_, ?_⟩
  · rw [h]
    decide
  · norm_num +decide [Diana.executeOrders, c7Diana, c7Src, dianaExecLoop, dianaTryExecute,
      penelopeGetQuote, mapGet, dianaExecuteBuy, dianaExecuteSell, optGe, optLe]

/-! ## Result provenance lemmas for the V2 engine -/

theorem bidWalk_results_fields (o : InnerOrder) (tk : FilledTrades)
    (prio : OrderBookOrderPriority) (isBuy : Bool) (pc : ℚ) (date : ℤ) :
    ∀ bids toFill f, ∀ r ∈ (bidWalk o tk prio isBuy pc date bids toFill f).2.2,
      r.order_id = o.order_id ∧ isFillResult r = true ∧ r.date = date ∧
        r.symbol = o.symbol := by
  intro bids
  induction bids with
  | nil =>
    intro toFill f r h
    simp [bidWalk] at h
  | cons b rest ih =>
    intro toFill f r h
    simp only [bidWalk] at h
    repeat' split at h
    all_goals
      first
        | exact ih _ _ r h
        | exact absurd h (List.not_mem_nil r)
        | (simp only [List.mem_cons, List.mem_singleton, List.not_mem_nil, or_false] at h
           rcases h with rfl | h'
           · exact ⟨rfl, rfl, rfl, rfl⟩
           · exact ih _ _ r h')
        | (simp only [List.mem_cons, List.mem_singleton, List.not_mem_nil, or_false] at h
           subst h
           exact ⟨rfl, rfl, rfl, rfl⟩)

theorem askWalk_results_fields (o : InnerOrder) (tk : FilledTrades)
    (prio : OrderBookOrderPriority) (isBuy : Bool) (pc : ℚ) (date : ℤ) :
    ∀ asks toFill f, ∀ r ∈ (askWalk o tk prio isBuy pc date asks toFill f).2.2,
      r.order_id = o.order_id ∧ isFillResult r = true ∧ r.date = date ∧
        r.symbol = o.symbol := by
  intro asks
  induction asks with
  | nil =>
    intro toFill f r h
    simp [askWalk] at h
  | cons a rest ih =>
    intro toFill f r h
    simp only [askWalk] at h
    repeat' split at h
    all_goals
      first
        | exact ih _ _ r h
        | exact absurd h (List.not_mem_nil r)
        | (simp only [List.mem_cons, List.mem_singleton, List.not_mem_nil, or_false] at h
           rcases h with rfl | h'
           · exact ⟨rfl, rfl, rfl, rfl⟩
           · exact ih _ _ r h')
        | (simp only [List.mem_cons, List.mem_singleton, List.not_mem_nil, or_false] at h
           subst h
           exact ⟨rfl, rfl, rfl, rfl⟩)

theorem fillOrder_results_fields (depth : Depth) (o : InnerOrder) (f : FillTracker)
    (tk : FilledTrades) (prio : OrderBookOrderPriority) :
    ∀ r ∈ (fillOrder depth o f tk prio).2,
      r.order_id = o.order_id ∧ isFillResult r = true ∧ r.date = depth.date ∧
        r.symbol = o.symbol := by
  intro r h
  simp only [fillOrder] at h
  rcases List.mem_append.mp h with h' | h'
  · exact bidWalk_results_fields o tk prio _ _ _ _ _ _ r h'
  · exact askWalk_results_fields o tk prio _ _ _ _ _ _ r h'

theorem cancelOrderFn_results (now : ℤ) (co : InnerOrder) (ob : List (ℕ × InnerOrder)) :
    ∀ r ∈ (cancelOrderFn now co ob).2, r.typ = .Cancel ∧ r.order_id = co.order_id := by
  intro r h
  rcases href : co.order_id_ref with _ | refId <;> simp only [cancelOrderFn, href] at h
  · simp at h
  · split at h
    · simp only [List.mem_singleton] at h
      subst h
      exact ⟨rfl, rfl⟩
    · simp at h

theorem modifyOrderFn_results (now : ℤ) (mo : InnerOrder) (ob : List (ℕ × InnerOrder)) :
    ∀ r ∈ (modifyOrderFn now mo ob).2, r.typ = .Modify ∧ r.order_id = mo.order_id := by
  intro r h
  rcases href : mo.order_id_ref with _ | refId <;> simp only [modifyOrderFn, href] at h
  · simp at h
  · rcases hg : btGet refId ob with _ | tgt <;> rw [hg] at h
    · simp at h
    · simp only [List.mem_singleton] at h
      subst h
      exact ⟨rfl, rfl⟩

theorem applyCancelModify_results (now : ℤ) (cams : List InnerOrder) :
    ∀ ob, ∀ r ∈ (applyCancelModify now cams ob).2,
      (r.typ = .Cancel ∨ r.typ = .Modify) ∧ ∃ o ∈ cams, r.order_id = o.order_id := by
  induction cams with
  | nil =>
    intro ob r h
    simp [applyCancelModify] at h
  | cons o rest ih =>
    intro ob r h
    simp only [applyCancelModify] at h
    rcases List.mem_append.mp h with h' | h'
    · rcases hot : o.order_type with t | t | t | t | t | t <;> rw [hot] at h' <;>
        simp only at h'
      case Cancel =>
        obtain ⟨ht, hid⟩ := cancelOrderFn_results now o ob r h'
        exact ⟨Or.inl ht, o, List.mem_cons_self _ _, hid⟩
      case Modify =>
        obtain ⟨ht, hid⟩ := modifyOrderFn_results now o ob r h'
        exact ⟨Or.inr ht, o, List.mem_cons_self _ _, hid⟩
      all_goals simp at h'
    · obtain ⟨ht, o', ho', hid⟩ := ih _ r h'
      exact ⟨ht, o', List.mem_cons_of_mem _ ho', hid⟩

theorem splitCancelModify_orders_subset :
    ∀ l : List (ℕ × InnerOrder), ∀ p ∈ (splitCancelModify l).2, p ∈ l := by
  intro l
  induction l with
  | nil =>
    intro p h
    simp [splitCancelModify] at h
  | cons q rest ih =>
    intro p h
    obtain ⟨oid, o⟩ := q
    rcases hot : o.order_type with t | t | t | t | t | t <;>
      simp only [splitCancelModify, hot] at h <;>
      first
        | exact List.mem_cons_of_mem _ (ih p h)
        | (rcases btInsert_mem h with he | hm
           · exact he ▸ List.mem_cons_self _ _
           · exact List.mem_cons_of_mem _ (ih p hm))

theorem splitCancelModify_cam_mem :
    ∀ l : List (ℕ × InnerOrder), ∀ o ∈ (splitCancelModify l).1, ∃ k, (k, o) ∈ l := by
  intro l
  induction l with
  | nil =>
    intro o h
    simp [splitCancelModify] at h
  | cons q rest ih =>
    intro o h
    obtain ⟨oid, o'⟩ := q
    rcases hot : o'.order_type with t | t | t | t | t | t <;>
      simp only [splitCancelModify, hot, List.mem_cons] at h
    case Cancel =>
      rcases h with rfl | h'
      · exact ⟨oid, List.mem_cons_self _ _⟩
      · obtain ⟨k, hk⟩ := ih o h'
        exact ⟨k, List.mem_cons_of_mem _ hk⟩
    case Modify =>
      rcases h with rfl | h'
      · exact ⟨oid, List.mem_cons_self _ _⟩
      · obtain ⟨k, hk⟩ := ih o h'
        exact ⟨k, List.mem_cons_of_mem _ hk⟩
    all_goals
      obtain ⟨k, hk⟩ := ih o h
      exact ⟨k, List.mem_cons_of_mem _ hk⟩

theorem btInsert_eq_cons {k : ℕ} {v : InnerOrder} {l : List (ℕ × InnerOrder)}
    (h : ∀ p ∈ l, k < p.1) : btInsert k v l = (k, v) :: l := by
  cases l with
  | nil => rfl
  | cons q rest =>
    obtain ⟨k', v'⟩ := q
    simp only [btInsert]
    rw [if_pos (h (k', v') (List.mem_cons_self _ _))]

theorem splitCancelModify_orders_eq (l : List (ℕ × InnerOrder))
    (hs : List.Sorted (· < ·) (l.map Prod.fst)) :
    (splitCancelModify l).2 = l.filter (fun p => !isCancelModify p.2.order_type) := by
  induction l with
  | nil => rfl
  | cons q rest ih =>
    obtain ⟨oid, o⟩ := q
    rw [List.map_cons, List.sorted_cons] at hs
    have hrest := ih hs.2
    rcases hot : o.order_type with t | t | t | t | t | t
    case Cancel =>
      simp [splitCancelModify, hot, List.filter_cons, hrest, isCancelModify]
    case Modify =>
      simp [splitCancelModify, hot, List.filter_cons, hrest, isCancelModify]
    all_goals
      have hhead : (!isCancelModify o.order_type) = true := by rw [hot]; rfl
      simp only [splitCancelModify, hot]
      rw [hrest, btInsert_eq_cons (fun p hp =>
        hs.1 p.1 (List.mem_map_of_mem Prod.fst (List.mem_of_mem_filter hp)))]
      simp [List.filter_cons, hhead]

theorem btAdjust_keys (k : ℕ) (f : InnerOrder → InnerOrder) (l : List (ℕ × InnerOrder)) :
    (btAdjust k f l).map Prod.fst = l.map Prod.fst := by
  induction l with
  | nil => rfl
  | cons q rest ih =>
    simp only [btAdjust, List.map_cons] at ih ⊢
    rw [ih]
    by_cases hk : q.1 = k <;> simp [hk]

theorem cancelOrderFn_keys (now : ℤ) (co : InnerOrder) (ob : List (ℕ × InnerOrder)) :
    List.Sublist ((cancelOrderFn now co ob).1.map Prod.fst) (ob.map Prod.fst) := by
  rcases href : co.order_id_ref with _ | refId <;> simp only [cancelOrderFn, href]
  · exact List.Sublist.refl _
  · split
    · simp only [btRemove]
      exact (List.filter_sublist _).map _
    · exact List.Sublist.refl _

theorem modifyOrderFn_keys (now : ℤ) (mo : InnerOrder) (ob : List (ℕ × InnerOrder)) :
    List.Sublist ((modifyOrderFn now mo ob).1.map Prod.fst) (ob.map Prod.fst) := by
  rcases href : mo.order_id_ref with _ | refId <;> simp only [modifyOrderFn, href]
  · exact List.Sublist.refl _
  · rcases hg : btGet refId ob with _ | tgt
    · exact List.Sublist.refl _
    · simp only
      split
      · rw [btAdjust_keys]
      · split
        · rw [btAdjust_keys]
        · simp only [btRemove]
          exact (List.filter_sublist _).map _

theorem applyCancelModify_keys (now : ℤ) (cams : List InnerOrder) :
    ∀ ob, List.Sublist ((applyCancelModify now cams ob).1.map Prod.fst) (ob.map Prod.fst) := by
  induction cams with
  | nil =>
    intro ob
    exact List.Sublist.refl _
  | cons o rest ih =>
    intro ob
    simp only [applyCancelModify]
    rcases hot : o.order_type with t | t | t | t | t | t <;> simp only
    case Cancel => exact (ih _).trans (cancelOrderFn_keys now o ob)
    case Modify => exact (ih _).trans (modifyOrderFn_keys now o ob)
    all_goals exact ih _

theorem cancelOrderFn_book_subset (now : ℤ) (co : InnerOrder) (ob : List (ℕ × InnerOrder)) :
    ∀ p ∈ (cancelOrderFn now co ob).1, p ∈ ob := by
  intro p h
  rcases href : co.order_id_ref with _ | refId <;> simp only [cancelOrderFn, href] at h
  · exact h
  · split at h
    · exact btRemove_subset h
    · exact h

theorem modifyOrderFn_book_core (now : ℤ) (mo : InnerOrder) (ob : List (ℕ × InnerOrder)) :
    ∀ p ∈ (modifyOrderFn now mo ob).1,
      ∃ q ∈ ob, p.1 = q.1 ∧ p.2.order_id = q.2.order_id ∧
        p.2.recieved_timestamp = q.2.recieved_timestamp ∧
        p.2.order_type = q.2.order_type := by
  intro p h
  rcases href : mo.order_id_ref with _ | refId <;> simp only [modifyOrderFn, href] at h
  · exact ⟨p, h, rfl, rfl, rfl, rfl⟩
  · rcases hg : btGet refId ob with _ | tgt <;> rw [hg] at h
    · exact ⟨p, h, rfl, rfl, rfl, rfl⟩
    · simp only at h
      split at h
      · obtain ⟨q, hq, hc⟩ := btAdjust_mem h
        rcases hc with he | he <;>
          exact ⟨q, hq, by rw [he], by rw [he], by rw [he], by rw [he]⟩
      · split at h
        · obtain ⟨q, hq, hc⟩ := btAdjust_mem h
          rcases hc with he | he <;>
            exact ⟨q, hq, by rw [he], by rw [he], by rw [he], by rw [he]⟩
        · exact ⟨p, btRemove_subset h, rfl, rfl, rfl, rfl⟩

theorem applyCancelModify_book_core (now : ℤ) (cams : List InnerOrder) :
    ∀ ob, ∀ p ∈ (applyCancelModify now cams ob).1,
      ∃ q ∈ ob, p.1 = q.1 ∧ p.2.order_id = q.2.order_id ∧
        p.2.recieved_timestamp = q.2.recieved_timestamp ∧
        p.2.order_type = q.2.order_type := by
  induction cams with
  | nil =>
    intro ob p h
    exact ⟨p, h, rfl, rfl, rfl, rfl⟩
  | cons o rest ih =>
    intro ob p h
    simp only [applyCancelModify] at h
    rcases hot : o.order_type with t | t | t | t | t | t <;> rw [hot] at h <;> simp only at h
    case Cancel =>
      obtain ⟨q, hq, h1, h2, h3, h4⟩ := ih _ p h
      exact ⟨q, cancelOrderFn_book_subset now o ob q hq, h1, h2, h3, h4⟩
    case Modify =>
      obtain ⟨q, hq, h1, h2, h3, h4⟩ := ih _ p h
      obtain ⟨q', hq', g1, g2, g3, g4⟩ := modifyOrderFn_book_core now o ob q hq
      exact ⟨q', hq', h1.trans g1, h2.trans g2, h3.trans g3, h4.trans g4⟩
    all_goals exact ih _ p h

theorem sorted_le_of_all_eq {l : List ℕ} {c : ℕ} (h : ∀ x ∈ l, x = c) :
    List.Sorted (· ≤ ·) l := by
  induction l with
  | nil => exact List.sorted_nil
  | cons a rest ih =>
    rw [List.sorted_cons]
    refine ⟨?_, ih fun x hx => h x (List.mem_cons_of_mem _ hx)⟩
    intro b hb
    rw [h a (List.mem_cons_self _ _), h b (List.mem_cons_of_mem _ hb)]

theorem matchLoop_fill_sorted (latency : LatencyModel) (prio : OrderBookOrderPriority)
    (quotes : DateDepth) (tk : FilledTrades) (now : ℤ) :
    ∀ orders unexec f res,
      (∀ p ∈ orders, p.2.order_id = p.1) →
      List.Sorted (· < ·) (orders.map Prod.fst) →
      (∀ r ∈ res, isFillResult r = true → ∀ p ∈ orders, r.order_id ≤ p.1) →
      List.Sorted (· ≤ ·) ((res.filter isFillResult).map (fun r => r.order_id)) →
      List.Sorted (· ≤ ·)
        (((matchLoop latency prio quotes tk now orders unexec f res).2.2.filter
          isFillResult).map (fun r => r.order_id)) := by
  intro orders
  induction orders with
  | nil =>
    intro unexec f res _ _ _ hsres
    exact hsres
  | cons q rest ih =>
    intro unexec f res hfield hsorted hres hsres
    obtain ⟨oid, o⟩ := q
    rw [List.map_cons, List.sorted_cons] at hsorted
    have hfield' : ∀ p ∈ rest, p.2.order_id = p.1 :=
      fun p hp => hfield p (List.mem_cons_of_mem _ hp)
    have hres' : ∀ r ∈ res, isFillResult r = true → ∀ p ∈ rest, r.order_id ≤ p.1 :=
      fun r hr hf p hp => hres r hr hf p (List.mem_cons_of_mem _ hp)
    have hoid : o.order_id = oid := hfield (oid, o) (List.mem_cons_self _ _)
    simp only [matchLoop]
    repeat' split
    all_goals
      first
        | exact ih _ _ _ hfield' hsorted.2 hres' hsres
        | (refine ih _ _ _ hfield' hsorted.2 ?_ ?_
           · intro r hr hf p hp
             rcases List.mem_append.mp hr with hr' | hr'
             · exact hres' r hr' hf p hp
             · rw [(fillOrder_results_fields _ _ _ _ _ r hr').1, hoid]
               exact le_of_lt (hsorted.1 p.1 (List.mem_map_of_mem Prod.fst hp))
           · rw [List.filter_append, List.map_append]
             refine (List.pairwise_append).mpr ⟨hsres, ?_, ?_⟩
             · apply sorted_le_of_all_eq
               intro x hx
               obtain ⟨r, hrf, rfl⟩ := List.mem_map.mp hx
               rw [(fillOrder_results_fields _ _ _ _ _ r (List.mem_of_mem_filter hrf)).1,
                 hoid]
             · intro a ha b hb
               obtain ⟨r, hrf, rfl⟩ := List.mem_map.mp ha
               obtain ⟨r', hrf', rfl⟩ := List.mem_map.mp hb
               rw [(fillOrder_results_fields _ _ _ _ _ r' (List.mem_of_mem_filter hrf')).1,
                 hoid]
               exact hres r (List.mem_of_mem_filter hrf) (List.of_mem_filter hrf) (oid, o)
                 (List.mem_cons_self _ _))

theorem bidWalk_prices (o : InnerOrder) (tk : FilledTrades) (prio : OrderBookOrderPriority)
    (isBuy : Bool) (pc : ℚ) (date : ℤ) :
    ∀ bids toFill f, ∃ ps : List ℚ,
      List.Forall₂ (fun p r => r.value = p * r.quantity) ps
        (bidWalk o tk prio isBuy pc date bids toFill f).2.2 ∧
      List.Sublist ps (bids.map Level.price) := by
  intro bids
  induction bids with
  | nil =>
    intro toFill f
    exact ⟨[], List.Forall₂.nil, List.nil_sublist _⟩
  | cons b rest ih =>
    intro toFill f
    simp only [bidWalk]
    repeat' split
    all_goals
      first
        | exact ⟨[], List.Forall₂.nil, List.nil_sublist _⟩
        | (obtain ⟨ps, hf, hs⟩ := ih _ _
           exact ⟨ps, hf, hs.cons _⟩)
        | (obtain ⟨ps, hf, hs⟩ := ih _ _
           exact ⟨b.price :: ps, List.Forall₂.cons rfl hf, hs.cons₂ _⟩)
        | exact ⟨[b.price], List.Forall₂.cons rfl List.Forall₂.nil,
            (List.nil_sublist _).cons₂ _⟩

theorem askWalk_prices (o : InnerOrder) (tk : FilledTrades) (prio : OrderBookOrderPriority)
    (isBuy : Bool) (pc : ℚ) (date : ℤ) :
    ∀ asks toFill f, ∃ ps : List ℚ,
      List.Forall₂ (fun p r => r.value = p * r.quantity) ps
        (askWalk o tk prio isBuy pc date asks toFill f).2.2 ∧
      List.Sublist ps (asks.map Level.price) := by
  intro asks
  induction asks with
  | nil =>
    intro toFill f
    exact ⟨[], List.Forall₂.nil, List.nil_sublist _⟩
  | cons a rest ih =>
    intro toFill f
    simp only [askWalk]
    repeat' split
    all_goals
      first
        | exact ⟨[], List.Forall₂.nil, List.nil_sublist _⟩
        | (obtain ⟨ps, hf, hs⟩ := ih _ _
           exact ⟨ps, hf, hs.cons _⟩)
        | (obtain ⟨ps, hf, hs⟩ := ih _ _
           exact ⟨a.price :: ps, List.Forall₂.cons rfl hf, hs.cons₂ _⟩)
        | exact ⟨[a.price], List.Forall₂.cons rfl List.Forall₂.nil,
            (List.nil_sublist _).cons₂ _⟩

theorem forall₂_append {α β : Type} {R : α → β → Prop} :
    ∀ {l₁ l₂ : List α} {m₁ m₂ : List β}, List.Forall₂ R l₁ m₁ → List.Forall₂ R l₂ m₂ →
      List.Forall₂ R (l₁ ++ l₂) (m₁ ++ m₂) := by
  intro l₁ l₂ m₁ m₂ h₁ h₂
  induction h₁ with
  | nil => exact h₂
  | cons h hrest ih => exact List.Forall₂.cons h ih

theorem fillOrder_prices (depth : Depth) (o : InnerOrder) (f : FillTracker)
    (tk : FilledTrades) (prio : OrderBookOrderPriority) :
    ∃ ps : List ℚ,
      List.Forall₂ (fun p r => r.value = p * r.quantity) ps (fillOrder depth o f tk prio).2 ∧
      List.Sublist ps (depth.bids.map Level.price ++ depth.asks.map Level.price) := by
  obtain ⟨ps1, hf1, hs1⟩ := bidWalk_prices o tk prio (isBuyType o.order_type) (priceCheck o)
    depth.date depth.bids o.qty f
  obtain ⟨ps2, hf2, hs2⟩ := askWalk_prices o tk prio (isBuyType o.order_type) (priceCheck o)
    depth.date depth.asks
    (bidWalk o tk prio (isBuyType o.order_type) (priceCheck o) depth.date depth.bids o.qty f).1
    (bidWalk o tk prio (isBuyType o.order_type) (priceCheck o) depth.date depth.bids o.qty
      f).2.1
  exact ⟨ps1 ++ ps2, forall₂_append hf1 hf2, List.Sublist.append hs1 hs2⟩

/-- Claim C7 as amended: in the V2 engine fills for distinct orders are
emitted in ascending resting-id order (the `BTreeMap` book is iterated
ascending), and within one order's fill walk each fill is priced by, in
order, a subsequence of the walked level prices — the bid levels in book
order, then the ask levels in book order (best to worst for a sorted
book).  The V1 half of the original claim fails: Diana's book is a
`HashMap` with unspecified iteration order. -/
theorem c7_amended_v2_emission_order (b : OrderBook) (quotes : DateDepth)
    (trades : DateTrade) (now : ℤ) (hwf : BookWF b) :
    List.Sorted (· ≤ ·)
      (((b.executeOrders quotes trades now).2.filter isFillResult).map
        (fun r => r.order_id)) ∧
    ∀ depth o f tk prio, ∃ ps : List ℚ,
      List.Forall₂ (fun p r => r.value = p * r.quantity) ps
        (fillOrder depth o f tk prio).2 ∧
      List.Sublist ps (depth.bids.map Level.price ++ depth.asks.map Level.price) := by
  refine ⟨?_, fun depth o f tk prio => fillOrder_prices depth o f tk prio⟩
  rw [OrderBook.executeOrders]
  split
  · simp
  · simp only [List.filter_append, List.map_append]
    have hsplit := splitCancelModify_orders_eq b.inner hwf.2
    have hcam : ((applyCancelModify now (splitCancelModify b.inner).1
        (splitCancelModify b.inner).2).2.filter isFillResult) = [] := by
      rw [List.filter_eq_nil_iff]
      intro r hr
      obtain ⟨ht, -⟩ := applyCancelModify_results now _ _ r hr
      rcases ht with ht | ht <;> simp [isFillResult, ht]
    rw [hcam]
    simp only [List.map_nil, List.nil_append]
    apply matchLoop_fill_sorted
    · intro p hp
      obtain ⟨q, hq, h1, h2, -, -⟩ := applyCancelModify_book_core now _ _ p hp
      have hq' := splitCancelModify_orders_subset b.inner q hq
      rw [h2, (hwf.1 q hq').1, h1]
    · refine List.Pairwise.sublist ?_ hwf.2
      exact (applyCancelModify_keys now _ _).trans
        (by rw [hsplit]; exact (List.filter_sublist _).map _)
    · intro r hr
      simp at hr
    · simp

/-- Witness for `c7_amended_v2_emission_order` at the C9 book (well-formed,
two limit buys): its fill ids are emitted in ascending order. -/
theorem c7_amended_witness :
    BookWF c9Book ∧
    List.Sorted (· ≤ ·)
      (((c9Book.executeOrders c9Quotes [] 100).2.filter isFillResult).map
        (fun r => r.order_id)) :=
  ⟨⟨by decide, by decide⟩,
   (c7_amended_v2_emission_order c9Book c9Quotes [] 100 ⟨by decide, by decide⟩).1⟩

/-! ## Claim C4: lookahead freedom -/

theorem matchLoop_results_provenance (latency : LatencyModel) (prio : OrderBookOrderPriority)
    (quotes : DateDepth) (tk : FilledTrades) (now : ℤ) :
    ∀ orders unexec f res,
      ∀ r ∈ (matchLoop latency prio quotes tk now orders unexec f res).2.2,
      r ∈ res ∨ ∃ p ∈ orders, ∃ exch depth,
        r.order_id = p.2.order_id ∧ isFillResult r = true ∧
          latency.cmpOrder now p.2 = true ∧ mapGet p.2.exchange quotes = some exch ∧
          mapGet p.2.symbol exch = some depth ∧ r.date = depth.date := by
  intro orders
  induction orders with
  | nil =>
    intro unexec f res r h
    exact Or.inl h
  | cons q rest ih =>
    intro unexec f res r h
    obtain ⟨oid, o⟩ := q
    simp only [matchLoop] at h
    by_cases hcmp : latency.cmpOrder now o = false
    · rw [if_pos hcmp] at h
      rcases ih _ _ _ r h with h' | ⟨p, hp, hrest⟩
      · exact Or.inl h'
      · exact Or.inr ⟨p, List.mem_cons_of_mem _ hp, hrest⟩
    · rw [if_neg hcmp] at h
      have hcmp' : latency.cmpOrder now o = true := by
        cases hb : latency.cmpOrder now o
        · exact absurd hb hcmp
        · rfl
      rcases hex : mapGet o.exchange quotes with _ | exch <;> simp only [hex] at h
      · rcases ih _ _ _ r h with h' | ⟨p, hp, hrest⟩
        · exact Or.inl h'
        · exact Or.inr ⟨p, List.mem_cons_of_mem _ hp, hrest⟩
      · rcases hdep : mapGet o.symbol exch with _ | depth <;> simp only [hdep] at h
        · rcases ih _ _ _ r h with h' | ⟨p, hp, hrest⟩
          · exact Or.inl h'
          · exact Or.inr ⟨p, List.mem_cons_of_mem _ hp, hrest⟩
        · rcases hot : o.order_type with t | t | t | t | t | t <;> simp only [hot] at h <;>
            first
              | (by_cases hemp : (fillOrder depth o f tk prio).2.isEmpty = true
                 · rw [if_pos hemp] at h
                   rcases ih _ _ _ r h with h' | ⟨p, hp, hrest⟩
                   · exact Or.inl h'
                   · exact Or.inr ⟨p, List.mem_cons_of_mem _ hp, hrest⟩
                 · rw [if_neg hemp] at h
                   rcases ih _ _ _ r h with h' | ⟨p, hp, hrest⟩
                   · rcases List.mem_append.mp h' with h'' | h''
                     · exact Or.inl h''
                     · have hf := fillOrder_results_fields depth o f tk prio r h''
                       exact Or.inr ⟨(oid, o), List.mem_cons_self _ _, exch, depth, hf.1,
                         hf.2.1, hcmp', hex, hdep, hf.2.2.1⟩
                   · exact Or.inr ⟨p, List.mem_cons_of_mem _ hp, hrest⟩)
              | (rcases ih _ _ _ r h with h' | ⟨p, hp, hrest⟩
                 · exact Or.inl h'
                 · exact Or.inr ⟨p, List.mem_cons_of_mem _ hp, hrest⟩)

theorem cmpOrder_congr (l : LatencyModel) (now : ℤ) {o o' : InnerOrder}
    (h : o.recieved_timestamp = o'.recieved_timestamp) :
    l.cmpOrder now o = l.cmpOrder now o' := by
  cases l <;> simp [LatencyModel.cmpOrder, h]

theorem executeOrders_fill_provenance (b : OrderBook) (quotes : DateDepth)
    (trades : DateTrade) (now : ℤ) :
    ∀ r ∈ (b.executeOrders quotes trades now).2, isFillResult r = true →
      ∃ q ∈ b.inner, ∃ (exch : List (String × Depth)) (depth : Depth) (v s : String),
        r.order_id = q.2.order_id ∧ b.latency.cmpOrder now q.2 = true ∧
          mapGet v quotes = some exch ∧ mapGet s exch = some depth ∧
          r.date = depth.date := by
  intro r hr hfill
  rw [OrderBook.executeOrders] at hr
  split at hr
  · simp at hr
  · simp only at hr
    rcases List.mem_append.mp hr with h' | h'
    · obtain ⟨ht, -⟩ := applyCancelModify_results now _ _ r h'
      exfalso
      rcases ht with ht | ht <;> simp [isFillResult, ht] at hfill
    · rcases matchLoop_results_provenance _ _ _ _ _ _ _ _ _ r h' with h0 |
        ⟨p, hp, exch, depth, hid, -, hcmpP, hex, hdep, hdate⟩
      · simp at h0
      · obtain ⟨q, hq, -, hido, hrcv, -⟩ := applyCancelModify_book_core now _ _ p hp
        have hq' := splitCancelModify_orders_subset b.inner q hq
        refine ⟨q, hq', exch, depth, p.2.exchange, p.2.symbol, hid.trans hido, ?_, hex,
          hdep, hdate⟩
        rw [← cmpOrder_congr b.latency now hrcv]
        exact hcmpP

theorem executeOrders_result_ids (b : OrderBook) (quotes : DateDepth) (trades : DateTrade)
    (now : ℤ) (hwf : ∀ p ∈ b.inner, p.2.order_id = p.1 ∧ p.1 < b.last_order_id) :
    ∀ r ∈ (b.executeOrders quotes trades now).2, r.order_id < b.last_order_id := by
  intro r hr
  rw [OrderBook.executeOrders] at hr
  split at hr
  · simp at hr
  · simp only at hr
    rcases List.mem_append.mp hr with h' | h'
    · obtain ⟨-, o, ho, hid⟩ := applyCancelModify_results now _ _ r h'
      obtain ⟨k, hk⟩ := splitCancelModify_cam_mem b.inner o ho
      have hw := hwf (k, o) hk
      rw [hid, show o.order_id = k from hw.1]
      exact hw.2
    · rcases matchLoop_results_provenance _ _ _ _ _ _ _ _ _ r h' with h0 |
        ⟨p, hp, -, -, hid, -, -, -, -, -⟩
      · simp at h0
      · obtain ⟨q, hq, -, h2, -, -⟩ := applyCancelModify_book_core now _ _ p hp
        have hq' := splitCancelModify_orders_subset b.inner q hq
        have hw := hwf q hq'
        rw [hid, h2, hw.1]
        exact hw.2

theorem insertBuffer_ids_ge (os : List Order) :
    ∀ (b : OrderBook) (now : ℤ), ∀ io ∈ (insertBuffer b os now).2,
      b.last_order_id ≤ io.order_id := by
  induction os with
  | nil =>
    intro b now io h
    simp [insertBuffer] at h
  | cons o rest ih =>
    intro b now io h
    simp only [insertBuffer, List.mem_cons] at h
    rcases h with rfl | h
    · exact le_refl _
    · have := ih _ now io h
      simp only [OrderBook.insertOrder] at this
      omega

/-- Claim C4: (i) orders buffered via `UistV2::insert_order` before a call
`tick(quotes, trades, now)` are admitted only after the tick's matching
pass — no result of that tick carries a newly admitted order's id; (ii)
under `FixedPeriod(P)`, a resting order with received-at `t₀` is eligible
to match at `now` iff `t₀ + P < now`; (iii) hence, when every depth in the
quote mapping is dated `now` (the data-feed contract), no fill attributed
to a resting order has timestamp ≤ `t₀ + P`. -/
theorem c4_lookahead_free (u : UistV2) (quotes : DateDepth) (trades : DateTrade)
    (now P : ℤ)
    (hwf : ∀ p ∈ u.orderbook.inner, p.2.order_id = p.1 ∧ p.1 < u.orderbook.last_order_id)
    (hnd : (u.orderbook.inner.map Prod.fst).Nodup) :
    (∀ r ∈ (u.tick quotes trades now).2.1, ∀ io ∈ (u.tick quotes trades now).2.2,
      r.order_id ≠ io.order_id) ∧
    (∀ o : InnerOrder, (LatencyModel.FixedPeriod P).cmpOrder now o = true ↔
      o.recieved_timestamp + P < now) ∧
    (u.orderbook.latency = .FixedPeriod P →
      (∀ v ex, mapGet v quotes = some ex → ∀ s d, mapGet s ex = some d → d.date = now) →
      ∀ k o, (k, o) ∈ u.orderbook.inner →
        ∀ r ∈ (u.tick quotes trades now).2.1, isFillResult r = true →
          r.order_id = o.order_id → ¬ r.date ≤ o.recieved_timestamp + P) := by
  refine ⟨?_, ?_, ?_⟩
  · intro r hr io hio
    have hrt : r ∈ (u.orderbook.executeOrders quotes trades now).2 := hr
    have hlt := executeOrders_result_ids u.orderbook quotes trades now hwf r hrt
    have hio' : io ∈ (insertBuffer (u.orderbook.executeOrders quotes trades now).1
        (sortOrderBuffer u.order_buffer) now).2 := hio
    have hge := insertBuffer_ids_ge _ _ now io hio'
    rw [executeOrders_last] at hge
    omega
  · intro o
    simp [LatencyModel.cmpOrder]
  · intro hlat hdates k o hko r hr hfill hid
    have hrt : r ∈ (u.orderbook.executeOrders quotes trades now).2 := hr
    obtain ⟨q, hq, exch, depth, v, s, hido, hcmp, hex, hdep, hdate⟩ :=
      executeOrders_fill_provenance u.orderbook quotes trades now r hrt hfill
    have hqk : q.1 = k := by
      have h1 := (hwf q hq).1
      have h2 : o.order_id = k := (hwf (k, o) hko).1
      rw [← h1, ← hido, hid, h2]
    have hqo : q = (k, o) := keys_nodup_eq hnd hq hko hqk
    rw [hqo, hlat] at hcmp
    have hlt : o.recieved_timestamp + P < now := by
      simpa [LatencyModel.cmpOrder] using hcmp
    have hdnow : depth.date = now := hdates v exch hex s depth hdep
    rw [hdate, hdnow]
    omega

/-- Witness for `c4_lookahead_free`: a well-formed book with one resting
limit buy received at 99 under `FixedPeriod(1)` and one buffered market
order, ticked at 100. -/
theorem c4_witness :
    (∀ p ∈ c4Uist.orderbook.inner,
      p.2.order_id = p.1 ∧ p.1 < c4Uist.orderbook.last_order_id) ∧
    (∀ r ∈ (c4Uist.tick [] [] 100).2.1, ∀ io ∈ (c4Uist.tick [] [] 100).2.2,
      r.order_id ≠ io.order_id) ∧
    (∀ o : InnerOrder, (LatencyModel.FixedPeriod 1).cmpOrder 100 o = true ↔
      o.recieved_timestamp + 1 < 100) := by
  have h := c4_lookahead_free c4Uist [] [] 100 1 (by decide) (by decide)
  exact ⟨by decide, h.1, h.2.1⟩

/-! ## Claim C3: the no-double-fill invariant -/

theorem fillsAtQty_nil (sym : String) (p : ℚ) : fillsAtQty [] sym p = 0 := rfl

theorem fillsAtQty_append (res₁ res₂ : List OrderResult) (sym : String) (p : ℚ) :
    fillsAtQty (res₁ ++ res₂) sym p = fillsAtQty res₁ sym p + fillsAtQty res₂ sym p := by
  simp [fillsAtQty, List.filter_append]

theorem fillsAtQty_cons (r : OrderResult) (res : List OrderResult) (sym : String) (p : ℚ) :
    fillsAtQty (r :: res) sym p =
      (if (isFillResult r && decide (r.symbol = sym) && decide (r.value = p * r.quantity))
          = true then r.quantity else 0) + fillsAtQty res sym p := by
  simp only [fillsAtQty, List.filter_cons]
  split
  · simp_all
  · simp_all

theorem fillsAtQty_nonfill (res : List OrderResult) (sym : String) (p : ℚ)
    (h : ∀ r ∈ res, isFillResult r = false) : fillsAtQty res sym p = 0 := by
  induction res with
  | nil => rfl
  | cons r rest ih =>
    rw [fillsAtQty_cons]
    rw [ih (fun r' hr' => h r' (List.mem_cons_of_mem _ hr'))]
    simp [h r (List.mem_cons_self _ _)]

theorem insertFill_delta (f : FillTracker) (osym : String) (lprice : ℚ)
    (r : OrderResult) (hsym : r.symbol = osym) (hval : r.value = lprice * r.quantity)
    (hfill : isFillResult r = true) :
    ∀ sym p, insertFill f osym lprice r.quantity sym p =
      f sym p + (if (isFillResult r && decide (r.symbol = sym) &&
        decide (r.value = p * r.quantity)) = true then r.quantity else 0) := by
  intro sym p
  simp only [insertFill]
  by_cases hq0 : r.quantity = 0
  · rw [hq0]
    split <;> simp [hq0]
  · by_cases hs : sym = osym
    · by_cases hp : p = lprice
      · subst hs hp
        rw [if_pos ⟨rfl, rfl⟩]
        simp [hfill, hsym, hval]
      · rw [if_neg (fun hand => hp hand.2)]
        have : ¬ r.value = p * r.quantity := by
          rw [hval]
          intro he
          exact hp (by
            have := mul_right_cancel₀ hq0 he.symm
            rw [this])
        simp [this]
    · rw [if_neg (fun hand => hs hand.1)]
      have : ¬ r.symbol = sym := fun he => hs (by rw [← he, hsym])
      simp [this]

theorem fillStep_le {f₀ toFill cap B' : ℚ} (hcap : cap ≤ B') :
    f₀ + (if cap - f₀ ≥ toFill then toFill else cap - f₀) ≤ B' := by
  split
  · next hge => linarith
  · linarith

theorem step_bound {B : String → ℚ → ℚ} {f : FillTracker} {osym : String}
    {lprice cap toFill : ℚ}
    (hf : ∀ sym p, f sym p ≤ B sym p) (hcap : cap ≤ B osym lprice) :
    ∀ sym p, insertFill f osym lprice
      (if cap - getFill f osym lprice ≥ toFill then toFill
       else cap - getFill f osym lprice) sym p ≤ B sym p := by
  intro sym p
  simp only [insertFill, getFill]
  split
  · next hand =>
    obtain ⟨rfl, rfl⟩ := hand
    exact fillStep_le hcap
  · exact hf sym p

theorem buildTaker_fold_char (p : ℚ) :
    ∀ (ts : List Trade) (m : FilledTrades),
      ((ts.foldl addTrade m) p).getD (0, 0) =
        (((m p).getD (0, 0)).1 + buyVolAt ts p, ((m p).getD (0, 0)).2 + sellVolAt ts p) := by
  intro ts
  induction ts with
  | nil =>
    intro m
    simp [buyVolAt, sellVolAt]
  | cons t rest ih =>
    intro m
    rw [List.foldl_cons, ih (addTrade m t)]
    have haddp : ((addTrade m t) p).getD (0, 0) =
        if p = t.px then
          (match t.side with
           | Side.Bid => (((m p).getD (0, 0)).1, ((m p).getD (0, 0)).2 + t.sz)
           | Side.Ask => (((m p).getD (0, 0)).1 + t.sz, ((m p).getD (0, 0)).2))
        else (m p).getD (0, 0) := by
      by_cases hpx : p = t.px
      · subst hpx
        cases hside : t.side <;> simp [addTrade, hside]
      · simp [addTrade, hpx]
    by_cases hpx : p = t.px
    · have hbvc : buyVolAt (t :: rest) p =
          (if t.side = Side.Ask then t.sz else 0) + buyVolAt rest p := by
        cases hside : t.side <;>
          simp [buyVolAt, List.filter_cons, hside, show t.px = p from hpx.symm]
      have hsvc : sellVolAt (t :: rest) p =
          (if t.side = Side.Bid then t.sz else 0) + sellVolAt rest p := by
        cases hside : t.side <;>
          simp [sellVolAt, List.filter_cons, hside, show t.px = p from hpx.symm]
      rw [haddp, if_pos hpx, hbvc, hsvc]
      cases hside : t.side <;> simp only [hside] <;>
        refine Prod.ext ?_ ?_ <;> simp <;> ring
    · have hbvc : buyVolAt (t :: rest) p = buyVolAt rest p := by
        simp [buyVolAt, List.filter_cons, show ¬ t.px = p from fun h => hpx h.symm]
      have hsvc : sellVolAt (t :: rest) p = sellVolAt rest p := by
        simp [sellVolAt, List.filter_cons, show ¬ t.px = p from fun h => hpx h.symm]
      rw [haddp, if_neg hpx, hbvc, hsvc]

theorem buyVol_nonneg (ts : List Trade) (p : ℚ) (h : ∀ t ∈ ts, 0 ≤ t.sz) :
    0 ≤ buyVolAt ts p := by
  apply List.sum_nonneg
  intro x hx
  obtain ⟨t, ht, rfl⟩ := List.mem_map.mp hx
  exact h t (List.mem_of_mem_filter ht)

theorem sellVol_nonneg (ts : List Trade) (p : ℚ) (h : ∀ t ∈ ts, 0 ≤ t.sz) :
    0 ≤ sellVolAt ts p := by
  apply List.sum_nonneg
  intro x hx
  obtain ⟨t, ht, rfl⟩ := List.mem_map.mp hx
  exact h t (List.mem_of_mem_filter ht)

theorem buyVol_add_sellVol (ts : List Trade) (p : ℚ) :
    buyVolAt ts p + sellVolAt ts p =
      ((ts.filter (fun t => decide (t.px = p))).map (fun t => t.sz)).sum := by
  induction ts with
  | nil => simp [buyVolAt, sellVolAt]
  | cons t rest ih =>
    by_cases hpx : t.px = p
    · cases hside : t.side <;>
        simp [buyVolAt, sellVolAt, List.filter_cons, hpx, hside] at ih ⊢ <;> linarith
    · simp [buyVolAt, sellVolAt, List.filter_cons, hpx] at ih ⊢
      exact ih

theorem takerTrades_bounds (trades : DateTrade)
    (ht : ∀ t ∈ allTrades trades, 0 ≤ t.sz) (p bv sv : ℚ)
    (h : buildTakerTrades trades p = some (bv, sv)) :
    0 ≤ bv ∧ 0 ≤ sv ∧ bv ≤ takerCredit trades p ∧ sv ≤ takerCredit trades p := by
  have hchar := buildTaker_fold_char p (allTrades trades) (fun _ => none)
  rw [show buildTakerTrades trades = (allTrades trades).foldl addTrade (fun _ => none)
    from rfl] at h
  rw [h] at hchar
  simp only [Option.getD_some, Option.getD_none] at hchar
  have hbv : bv = buyVolAt (allTrades trades) p := by
    have := congrArg Prod.fst hchar
    simpa using this
  have hsv : sv = sellVolAt (allTrades trades) p := by
    have := congrArg Prod.snd hchar
    simpa using this
  have hb0 := buyVol_nonneg (allTrades trades) p ht
  have hs0 := sellVol_nonneg (allTrades trades) p ht
  have hsum : buyVolAt (allTrades trades) p + sellVolAt (allTrades trades) p =
      takerCredit trades p := buyVol_add_sellVol (allTrades trades) p
  subst hbv hsv
  refine ⟨hb0, hs0, by linarith, by linarith⟩

theorem mapGet_mem {β : Type} {k : String} {v : β} :
    ∀ {l : List (String × β)}, mapGet k l = some v → (k, v) ∈ l := by
  intro l
  induction l with
  | nil =>
    intro h
    simp [mapGet] at h
  | cons q rest ih =>
    intro h
    obtain ⟨k', v'⟩ := q
    by_cases he : k = k'
    · rw [show mapGet k ((k', v') :: rest) = if k = k' then some v' else mapGet k rest
        from rfl, if_pos he] at h
      obtain rfl := Option.some.inj h
      subst he
      exact List.mem_cons_self _ _
    · rw [show mapGet k ((k', v') :: rest) = if k = k' then some v' else mapGet k rest
        from rfl, if_neg he] at h
      exact List.mem_cons_of_mem _ (ih h)

theorem mem_allDepths {quotes : DateDepth} {v : String} {ex : List (String × Depth)}
    {s : String} {d : Depth} (hex : mapGet v quotes = some ex)
    (hdep : mapGet s ex = some d) : (s, d) ∈ allDepths quotes := by
  have h1 := mapGet_mem hex
  have h2 := mapGet_mem hdep
  simp only [allDepths, List.mem_flatten]
  exact ⟨ex, List.mem_map_of_mem Prod.snd h1, h2⟩

theorem depthSizeAt_nonneg (d : Depth) (p : ℚ) (h : ∀ l ∈ d.bids ++ d.asks, 0 ≤ l.size) :
    0 ≤ depthSizeAt d p := by
  apply List.sum_nonneg
  intro x hx
  obtain ⟨l, hl, rfl⟩ := List.mem_map.mp hx
  exact h l (List.mem_of_mem_filter hl)

theorem displayedTotal_nonneg (quotes : DateDepth) (sym : String) (p : ℚ)
    (hq : ∀ sd ∈ allDepths quotes, ∀ l ∈ sd.2.bids ++ sd.2.asks, 0 ≤ l.size) :
    0 ≤ displayedTotal quotes sym p := by
  apply List.sum_nonneg
  intro x hx
  obtain ⟨sd, hsd, rfl⟩ := List.mem_map.mp hx
  exact depthSizeAt_nonneg _ _ (hq sd (List.mem_of_mem_filter hsd))

theorem takerCredit_nonneg (trades : DateTrade) (p : ℚ)
    (ht : ∀ t ∈ allTrades trades, 0 ≤ t.sz) : 0 ≤ takerCredit trades p := by
  apply List.sum_nonneg
  intro x hx
  obtain ⟨t, htt, rfl⟩ := List.mem_map.mp hx
  exact ht t (List.mem_of_mem_filter htt)

theorem level_le_displayed {quotes : DateDepth} {v : String} {ex : List (String × Depth)}
    {s : String} {d : Depth}
    (hq : ∀ sd ∈ allDepths quotes, ∀ l ∈ sd.2.bids ++ sd.2.asks, 0 ≤ l.size)
    (hex : mapGet v quotes = some ex) (hdep : mapGet s ex = some d) :
    ∀ l ∈ d.bids ++ d.asks, l.size ≤ displayedTotal quotes s l.price := by
  intro l hl
  have hmem := mem_allDepths hex hdep
  have h1 : l.size ≤ depthSizeAt d l.price := by
    apply List.single_le_sum
    · intro x hx
      obtain ⟨l', hl', rfl⟩ := List.mem_map.mp hx
      exact hq (s, d) hmem l' (List.mem_of_mem_filter hl')
    · exact List.mem_map_of_mem _ (List.mem_filter.mpr ⟨hl, by simp⟩)
  have h2 : depthSizeAt d l.price ≤ displayedTotal quotes s l.price := by
    apply List.single_le_sum
    · intro x hx
      obtain ⟨sd, hsd, rfl⟩ := List.mem_map.mp hx
      exact depthSizeAt_nonneg _ _ (hq sd (List.mem_of_mem_filter hsd))
    · exact List.mem_map_of_mem _ (List.mem_filter.mpr ⟨hmem, by simp⟩)
  linarith

theorem insertFill_delta_eq (f : FillTracker) (osym : String) (lprice qty : ℚ)
    (sym : String) (p : ℚ) :
    insertFill f osym lprice qty sym p =
      f sym p + (if (decide (osym = sym) && decide (lprice * qty = p * qty)) = true
                 then qty else 0) := by
  simp only [insertFill]
  by_cases hs : sym = osym
  · by_cases hp : p = lprice
    · subst hs hp
      simp
    · rw [if_neg (fun hand => hp hand.2)]
      by_cases hq0 : qty = 0
      · subst hq0
        simp
      · have hne : ¬ lprice * qty = p * qty := fun he => hp (mul_right_cancel₀ hq0 he).symm
        simp [hne]
  · rw [if_neg (fun hand => hs hand.1)]
    have hne : ¬ osym = sym := fun he => hs he.symm
    simp [hne]

theorem bidWalk_tracker_sum (o : InnerOrder) (tk : FilledTrades)
    (prio : OrderBookOrderPriority) (isBuy : Bool) (pc : ℚ) (date : ℤ) :
    ∀ bids toFill f sym p,
      (bidWalk o tk prio isBuy pc date bids toFill f).2.1 sym p =
        f sym p + fillsAtQty (bidWalk o tk prio isBuy pc date bids toFill f).2.2 sym p := by
  intro bids
  induction bids with
  | nil =>
    intro toFill f sym p
    simp [bidWalk, fillsAtQty_nil]
  | cons b rest ih =>
    intro toFill f sym p
    simp only [bidWalk]
    by_cases hc1 : prio = OrderBookOrderPriority.AlwaysFirst ∧ isBuy = true ∧ b.price = pc
    · rw [if_pos hc1]
      rcases htkq : tk pc with _ | vol <;> simp only [htkq]
      · exact ih _ _ sym p
      · by_cases hz : vol.2 - getFill f o.symbol b.price = 0
        · rw [if_pos hz]
          simp [fillsAtQty_nil]
        · rw [if_neg hz]
          simp only [fillsAtQty_cons, isFillResult, Bool.true_and]
          rw [ih _ _ sym p, insertFill_delta_eq]
          ring
    · rw [if_neg hc1]
      by_cases hc2 : isBuy = false ∧ b.price ≥ pc
      · rw [if_pos hc2]
        by_cases hz : b.size - getFill f o.symbol b.price = 0
        · rw [if_pos hz]
          simp [fillsAtQty_nil]
        · rw [if_neg hz]
          by_cases hfin : toFill - (if b.size - getFill f o.symbol b.price ≥ toFill
              then toFill else b.size - getFill f o.symbol b.price) = 0
          · rw [if_pos hfin]
            simp only [fillsAtQty_cons, fillsAtQty_nil, isFillResult, Bool.true_and]
            rw [insertFill_delta_eq]
            ring
          · rw [if_neg hfin]
            simp only [fillsAtQty_cons, isFillResult, Bool.true_and]
            rw [ih _ _ sym p, insertFill_delta_eq]
            ring
      · rw [if_neg hc2]
        exact ih _ _ sym p

theorem bidWalk_tracker_bound (o : InnerOrder) (tk : FilledTrades)
    (prio : OrderBookOrderPriority) (isBuy : Bool) (pc : ℚ) (date : ℤ)
    (B : String → ℚ → ℚ)
    (htk : ∀ q bv sv, tk q = some (bv, sv) → bv ≤ B o.symbol q ∧ sv ≤ B o.symbol q) :
    ∀ bids toFill f,
      (∀ l ∈ bids, l.size ≤ B o.symbol l.price) →
      (∀ sym p, f sym p ≤ B sym p) →
      ∀ sym p, (bidWalk o tk prio isBuy pc date bids toFill f).2.1 sym p ≤ B sym p := by
  intro bids
  induction bids with
  | nil =>
    intro toFill f _ hf sym p
    exact hf sym p
  | cons b rest ih =>
    intro toFill f hlv hf sym p
    have hlv' : ∀ l ∈ rest, l.size ≤ B o.symbol l.price :=
      fun l hl => hlv l (List.mem_cons_of_mem _ hl)
    simp only [bidWalk]
    by_cases hc1 : prio = OrderBookOrderPriority.AlwaysFirst ∧ isBuy = true ∧ b.price = pc
    · rw [if_pos hc1]
      rcases htkq : tk pc with _ | vol <;> simp only [htkq]
      · exact ih _ _ hlv' hf sym p
      · by_cases hz : vol.2 - getFill f o.symbol b.price = 0
        · rw [if_pos hz]
          exact hf sym p
        · rw [if_neg hz]
          have hcap : vol.2 ≤ B o.symbol b.price := by
            rw [hc1.2.2]
            exact (htk pc vol.1 vol.2 (by rw [htkq])).2
          exact ih _ _ hlv' (step_bound hf hcap) sym p
    · rw [if_neg hc1]
      by_cases hc2 : isBuy = false ∧ b.price ≥ pc
      · rw [if_pos hc2]
        by_cases hz : b.size - getFill f o.symbol b.price = 0
        · rw [if_pos hz]
          exact hf sym p
        · rw [if_neg hz]
          have hcap : b.size ≤ B o.symbol b.price := hlv b (List.mem_cons_self _ _)
          by_cases hfin : toFill - (if b.size - getFill f o.symbol b.price ≥ toFill
              then toFill else b.size - getFill f o.symbol b.price) = 0
          · rw [if_pos hfin]
            exact step_bound hf hcap sym p
          · rw [if_neg hfin]
            exact ih _ _ hlv' (step_bound hf hcap) sym p
      · rw [if_neg hc2]
        exact ih _ _ hlv' hf sym p

theorem askWalk_tracker_sum (o : InnerOrder) (tk : FilledTrades)
    (prio : OrderBookOrderPriority) (isBuy : Bool) (pc : ℚ) (date : ℤ) :
    ∀ asks toFill f sym p,
      (askWalk o tk prio isBuy pc date asks toFill f).2.1 sym p =
        f sym p + fillsAtQty (askWalk o tk prio isBuy pc date asks toFill f).2.2 sym p := by
  intro asks
  induction asks with
  | nil =>
    intro toFill f sym p
    simp [askWalk, fillsAtQty_nil]
  | cons a rest ih =>
    intro toFill f sym p
    simp only [askWalk]
    by_cases hc1 : prio = OrderBookOrderPriority.AlwaysFirst ∧ isBuy = false ∧ a.price = pc
    · rw [if_pos hc1]
      rcases htkq : tk pc with _ | vol <;> simp only [htkq]
      · exact ih _ _ sym p
      · by_cases hz : vol.1 - getFill f o.symbol a.price = 0
        · rw [if_pos hz]
          simp [fillsAtQty_nil]
        · rw [if_neg hz]
          simp only [fillsAtQty_cons, isFillResult, Bool.true_and]
          rw [ih _ _ sym p, insertFill_delta_eq]
          ring
    · rw [if_neg hc1]
      by_cases hc2 : isBuy = true ∧ a.price ≤ pc
      · rw [if_pos hc2]
        by_cases hz : a.size - getFill f o.symbol a.price = 0
        · rw [if_pos hz]
          simp [fillsAtQty_nil]
        · rw [if_neg hz]
          by_cases hfin : toFill - (if a.size - getFill f o.symbol a.price ≥ toFill
              then toFill else a.size - getFill f o.symbol a.price) = 0
          · rw [if_pos hfin]
            simp only [fillsAtQty_cons, fillsAtQty_nil, isFillResult, Bool.true_and]
            rw [insertFill_delta_eq]
            ring
          · rw [if_neg hfin]
            simp only [fillsAtQty_cons, isFillResult, Bool.true_and]
            rw [ih _ _ sym p, insertFill_delta_eq]
            ring
      · rw [if_neg hc2]
        exact ih _ _ sym p

theorem askWalk_tracker_bound (o : InnerOrder) (tk : FilledTrades)
    (prio : OrderBookOrderPriority) (isBuy : Bool) (pc : ℚ) (date : ℤ)
    (B : String → ℚ → ℚ)
    (htk : ∀ q bv sv, tk q = some (bv, sv) → bv ≤ B o.symbol q ∧ sv ≤ B o.symbol q) :
    ∀ asks toFill f,
      (∀ l ∈ asks, l.size ≤ B o.symbol l.price) →
      (∀ sym p, f sym p ≤ B sym p) →
      ∀ sym p, (askWalk o tk prio isBuy pc date asks toFill f).2.1 sym p ≤ B sym p := by
  intro asks
  induction asks with
  | nil =>
    intro toFill f _ hf sym p
    exact hf sym p
  | cons a rest ih =>
    intro toFill f hlv hf sym p
    have hlv' : ∀ l ∈ rest, l.size ≤ B o.symbol l.price :=
      fun l hl => hlv l (List.mem_cons_of_mem _ hl)
    simp only [askWalk]
    by_cases hc1 : prio = OrderBookOrderPriority.AlwaysFirst ∧ isBuy = false ∧ a.price = pc
    · rw [if_pos hc1]
      rcases htkq : tk pc with _ | vol <;> simp only [htkq]
      · exact ih _ _ hlv' hf sym p
      · by_cases hz : vol.1 - getFill f o.symbol a.price = 0
        · rw [if_pos hz]
          exact hf sym p
        · rw [if_neg hz]
          have hcap : vol.1 ≤ B o.symbol a.price := by
            rw [hc1.2.2]
            exact (htk pc vol.1 vol.2 (by rw [htkq])).1
          exact ih _ _ hlv' (step_bound hf hcap) sym p
    · rw [if_neg hc1]
      by_cases hc2 : isBuy = true ∧ a.price ≤ pc
      · rw [if_pos hc2]
        by_cases hz : a.size - getFill f o.symbol a.price = 0
        · rw [if_pos hz]
          exact hf sym p
        · rw [if_neg hz]
          have hcap : a.size ≤ B o.symbol a.price := hlv a (List.mem_cons_self _ _)
          by_cases hfin : toFill - (if a.size - getFill f o.symbol a.price ≥ toFill
              then toFill else a.size - getFill f o.symbol a.price) = 0
          · rw [if_pos hfin]
            exact step_bound hf hcap sym p
          · rw [if_neg hfin]
            exact ih _ _ hlv' (step_bound hf hcap) sym p
      · rw [if_neg hc2]
        exact ih _ _ hlv' hf sym p

theorem fillOrder_tracker_sum (depth : Depth) (o : InnerOrder) (filled : FillTracker)
    (tk : FilledTrades) (prio : OrderBookOrderPriority) (sym : String) (p : ℚ) :
    (fillOrder depth o filled tk prio).1 sym p =
      filled sym p + fillsAtQty (fillOrder depth o filled tk prio).2 sym p := by
  simp only [fillOrder]
  rw [fillsAtQty_append, askWalk_tracker_sum, bidWalk_tracker_sum]
  ring

theorem fillOrder_tracker_bound (depth : Depth) (o : InnerOrder) (filled : FillTracker)
    (tk : FilledTrades) (prio : OrderBookOrderPriority) (B : String → ℚ → ℚ)
    (htk : ∀ q bv sv, tk q = some (bv, sv) → bv ≤ B o.symbol q ∧ sv ≤ B o.symbol q)
    (hlv : ∀ l ∈ depth.bids ++ depth.asks, l.size ≤ B o.symbol l.price)
    (hf : ∀ sym p, filled sym p ≤ B sym p) :
    ∀ sym p, (fillOrder depth o filled tk prio).1 sym p ≤ B sym p := by
  intro sym p
  simp only [fillOrder]
  apply askWalk_tracker_bound o tk prio _ _ _ B htk _ _ _
    (fun l hl => hlv l (List.mem_append_right _ hl))
  exact bidWalk_tracker_bound o tk prio _ _ _ B htk _ _ _
    (fun l hl => hlv l (List.mem_append_left _ hl)) hf

theorem matchLoop_tracker_sum (latency : LatencyModel) (prio : OrderBookOrderPriority)
    (quotes : DateDepth) (tk : FilledTrades) (now : ℤ) :
    ∀ orders unexec filled results sym p,
      (matchLoop latency prio quotes tk now orders unexec filled results).2.1 sym p
          + fillsAtQty results sym p =
        filled sym p +
          fillsAtQty
            (matchLoop latency prio quotes tk now orders unexec filled results).2.2 sym p := by
  intro orders
  induction orders with
  | nil =>
    intro unexec filled results sym p
    simp [matchLoop]
  | cons ko rest ih =>
    intro unexec filled results sym p
    obtain ⟨oid, o⟩ := ko
    simp only [matchLoop]
    by_cases hlat : latency.cmpOrder now o = false
    · rw [if_pos hlat]
      exact ih _ _ _ sym p
    · rw [if_neg hlat]
      rcases hex : mapGet o.exchange quotes with _ | exchange <;> simp only [hex]
      · exact ih _ _ _ sym p
      · rcases hdp : mapGet o.symbol exchange with _ | depth <;> simp only [hdp]
        · exact ih _ _ _ sym p
        · cases hot : o.order_type <;> simp only [hot] <;>
            first
              | exact ih _ _ _ sym p
              | (by_cases hie : (fillOrder depth o filled tk prio).2.isEmpty = true
                 · rw [if_pos hie]
                   have hfe : (fillOrder depth o filled tk prio).2 = [] :=
                     List.isEmpty_iff.mp hie
                   have hsum := fillOrder_tracker_sum depth o filled tk prio sym p
                   rw [hfe, fillsAtQty_nil, add_zero] at hsum
                   rw [ih _ _ _ sym p, hsum]
                 · rw [if_neg hie]
                   have hih := ih unexec (fillOrder depth o filled tk prio).1
                     (results ++ (fillOrder depth o filled tk prio).2) sym p
                   rw [fillsAtQty_append] at hih
                   have hsum := fillOrder_tracker_sum depth o filled tk prio sym p
                   linarith [hih, hsum])

theorem matchLoop_tracker_bound (latency : LatencyModel) (prio : OrderBookOrderPriority)
    (quotes : DateDepth) (tk : FilledTrades) (now : ℤ) (B : String → ℚ → ℚ)
    (htk : ∀ s q bv sv, tk q = some (bv, sv) → bv ≤ B s q ∧ sv ≤ B s q)
    (hdep : ∀ v ex s d, mapGet v quotes = some ex → mapGet s ex = some d →
      ∀ l ∈ d.bids ++ d.asks, l.size ≤ B s l.price) :
    ∀ orders unexec filled results,
      (∀ sym p, filled sym p ≤ B sym p) →
      ∀ sym p,
        (matchLoop latency prio quotes tk now orders unexec filled results).2.1 sym p
          ≤ B sym p := by
  intro orders
  induction orders with
  | nil =>
    intro unexec filled results hf sym p
    exact hf sym p
  | cons ko rest ih =>
    intro unexec filled results hf sym p
    obtain ⟨oid, o⟩ := ko
    simp only [matchLoop]
    by_cases hlat : latency.cmpOrder now o = false
    · rw [if_pos hlat]
      exact ih _ _ _ hf sym p
    · rw [if_neg hlat]
      rcases hex : mapGet o.exchange quotes with _ | exchange <;> simp only [hex]
      · exact ih _ _ _ hf sym p
      · rcases hdp : mapGet o.symbol exchange with _ | depth <;> simp only [hdp]
        · exact ih _ _ _ hf sym p
        · have hfb : ∀ sym p, (fillOrder depth o filled tk prio).1 sym p ≤ B sym p :=
            fillOrder_tracker_bound depth o filled tk prio B
              (fun q bv sv hq => htk o.symbol q bv sv hq)
              (hdep o.exchange exchange o.symbol depth hex hdp) hf
          cases hot : o.order_type <;> simp only [hot] <;>
            first
              | (split <;> exact ih _ _ _ hfb sym p)
              | exact ih _ _ _ hf sym p

/-- **C3.**  The FillTracker prevents double-consumption of liquidity within
a single `execute_orders` call: for every symbol and price, the total
quantity of fill results emitted by the call is at most the total displayed
depth size at that price plus the aggregated taker-print volume at that
price, provided all input depth sizes and taker print sizes are
nonnegative.  The transient Cancel/Modify results carry no quantity, and
every fill walk checks the tracker before consuming a level or a taker
volume, so the call can never hand out the same liquidity twice. -/
theorem c3_no_double_fill (b : OrderBook) (quotes : DateDepth) (trades : DateTrade)
    (now : ℤ) (sym : String) (p : ℚ)
    (hq : ∀ sd ∈ allDepths quotes, ∀ l ∈ sd.2.bids ++ sd.2.asks, 0 ≤ l.size)
    (ht : ∀ t ∈ allTrades trades, 0 ≤ t.sz) :
    fillsAtQty (b.executeOrders quotes trades now).2 sym p ≤
      displayedTotal quotes sym p + takerCredit trades p := by
  have hBnn : ∀ s q, 0 ≤ displayedTotal quotes s q + takerCredit trades q := fun s q =>
    add_nonneg (displayedTotal_nonneg quotes s q hq) (takerCredit_nonneg trades q ht)
  simp only [OrderBook.executeOrders]
  by_cases hemp : b.isEmpty = true
  · rw [if_pos hemp]
    simpa [fillsAtQty_nil] using hBnn sym p
  · rw [if_neg hemp]
    simp only [fillsAtQty_append]
    have hcam : fillsAtQty (applyCancelModify now (splitCancelModify b.inner).1
        (splitCancelModify b.inner).2).2 sym p = 0 := by
      apply fillsAtQty_nonfill
      intro r hr
      rcases (applyCancelModify_results now _ _ r hr).1 with h | h <;>
        simp [isFillResult, h]
    rw [hcam, zero_add]
    have hsum := matchLoop_tracker_sum b.latency b.priority_setting quotes
      (buildTakerTrades trades) now (applyCancelModify now (splitCancelModify b.inner).1
        (splitCancelModify b.inner).2).1 [] (fun _ _ => 0) [] sym p
    simp only [fillsAtQty_nil, add_zero, zero_add] at hsum
    have htkB : ∀ s q bv sv, buildTakerTrades trades q = some (bv, sv) →
        bv ≤ displayedTotal quotes s q + takerCredit trades q ∧
        sv ≤ displayedTotal quotes s q + takerCredit trades q := by
      intro s q bv sv hsome
      obtain ⟨_, _, hb, hs'⟩ := takerTrades_bounds trades ht q bv sv hsome
      have hd := displayedTotal_nonneg quotes s q hq
      constructor <;> linarith
    have hdepB : ∀ v ex s d, mapGet v quotes = some ex → mapGet s ex = some d →
        ∀ l ∈ d.bids ++ d.asks,
          l.size ≤ displayedTotal quotes s l.price + takerCredit trades l.price := by
      intro v ex s d hvx hsx l hl
      have h1 := level_le_displayed hq hvx hsx l hl
      have h2 := takerCredit_nonneg trades l.price ht
      linarith
    have hbound := matchLoop_tracker_bound b.latency b.priority_setting quotes
      (buildTakerTrades trades) now
      (fun s q => displayedTotal quotes s q + takerCredit trades q) htkB hdepB
      (applyCancelModify now (splitCancelModify b.inner).1
        (splitCancelModify b.inner).2).1 [] (fun _ _ => 0) []
      (fun s q => hBnn s q) sym p
    rw [← hsum]
    exact hbound

/-- Witness for C3: a concrete book, quote set and taker-print set satisfy the
nonnegativity hypotheses, and the no-double-fill bound follows by the
theorem. -/
theorem c3_witness :
    (∀ sd ∈ allDepths c3Quotes, ∀ l ∈ sd.2.bids ++ sd.2.asks, (0 : ℚ) ≤ l.size) ∧
    (∀ t ∈ allTrades c3Trades, (0 : ℚ) ≤ t.sz) ∧
    fillsAtQty (c3Book.executeOrders c3Quotes c3Trades 100).2 "ABC" 101 ≤
      displayedTotal c3Quotes "ABC" 101 + takerCredit c3Trades 101 := by
  refine ⟨?_, ?_, ?_⟩
  · norm_num [allDepths, c3Quotes, List.forall_mem_cons]
  · norm_num [allTrades, c3Trades, List.forall_mem_cons]
  · exact c3_no_double_fill c3Book c3Quotes c3Trades 100 "ABC" 101
      (by norm_num [allDepths, c3Quotes, List.forall_mem_cons])
      (by norm_num [allTrades, c3Trades, List.forall_mem_cons])

end Rotala




